import Mathlib

/-!
Shallow embedding of the BPMN layout engine of this repository
(src/core/bpmn_layout.py, class BPMNLayoutEngine), together with proofs
about the layout claims.

Modelling conventions:
* Python floats are modelled as rationals; every quantity the engine
  computes is a dyadic rational of small magnitude, so float arithmetic is
  exact and the rational model is faithful.
* Python dicts keyed by node id are modelled as association lists in
  insertion order; dict writes replace the first occurrence of the key.
* A raised KeyError is modelled as a none result of the layout pipeline.
* Set iteration (over all_node_ids) is modelled as iteration in node
  insertion order; every claim below is insensitive to that order.
-/

/-- Input participant record: one element of the document's actors list. -/
structure Actor where
  id : String
  name : Option String
deriving DecidableEq, Repr

/-- Input task record. The source reads actor_id with task.get("actor_id", ""),
so a missing actor_id is modelled as the empty string; name and phase_id are
read with defaults, modelled as Option. -/
structure TaskRec where
  id : String
  name : Option String
  actor_id : String
  phase_id : Option String
deriving DecidableEq, Repr

/-- Input gateway record (its type field is never read by the layout engine). -/
structure Gateway where
  id : String
  name : Option String
deriving DecidableEq, Repr

/-- Input flow record. The source reads endpoints with flow.get("from", "") and
flow.get("to", ""), so missing endpoints are modelled as the empty string. -/
structure FlowRec where
  fid : Option String
  src : String
  dst : String
  condition : Option String
deriving DecidableEq, Repr

/-- Parsed input document. The engine also accepts a phases list, but
_assign_ranks always delegates to the topological-sort variant, so phases
never influence the computed layout and are omitted. -/
structure FlowDoc where
  actors : List Actor
  tasks : List TaskRec
  gateways : List Gateway
  flows : List FlowRec
deriving DecidableEq, Repr

/-- Intermediate node model (dataclass LayoutNode). -/
structure LayoutNode where
  node_id : String
  kind : String
  label : String
  actor_id : String
  phase_id : Option String
  lane_index : Nat
  rank_index : Nat
  order_in_rank : Nat
  width : ℚ
  height : ℚ
  x : ℚ
  y : ℚ
deriving DecidableEq, Repr

/-- Intermediate edge model (dataclass LayoutEdge). -/
structure LayoutEdge where
  edge_id : String
  from_node : String
  to_node : String
  condition : Option String
  waypoints : List (ℚ × ℚ)
deriving DecidableEq, Repr

/-- Intermediate swimlane model (dataclass LayoutLane). -/
structure LayoutLane where
  lane_index : Nat
  actor_id : String
  label : String
  y : ℚ
  height : ℚ
deriving DecidableEq, Repr

/-- Intermediate rank (column) model (dataclass LayoutRank). -/
structure LayoutRank where
  rank_index : Nat
  phase_id : Option String
  label : Option String
  x : ℚ
  width : ℚ
deriving DecidableEq, Repr

/-- Output node record (dataclass BPMNNodeLayout). -/
structure BPMNNodeLayout where
  node_id : String
  label : String
  x : ℚ
  y : ℚ
  width : ℚ
  height : ℚ
  kind : String
  lane_id : String
deriving DecidableEq, Repr

/-- Output lane record (dataclass BPMNLaneLayout). -/
structure BPMNLaneLayout where
  lane_id : String
  label : String
  x : ℚ
  y : ℚ
  width : ℚ
  height : ℚ
deriving DecidableEq, Repr

/-- Lookup in an association list (first matching key, like a dict read). -/
def lookupA {α : Type} : List (String × α) → String → Option α
  | [], _ => none
  | p :: rest, key => if p.1 = key then some p.2 else lookupA rest key

/-- Overwrite the value at a key in an association list (first occurrence,
like a dict write to an existing key); missing keys are left untouched. -/
def setA {α : Type} : List (String × α) → String → α → List (String × α)
  | [], _, _ => []
  | p :: rest, key, v => if p.1 = key then (p.1, v) :: rest else p :: setA rest key v

/-- Insert one element into a list using a boolean comparator; together with
sortLe this is a stable insertion sort, which agrees with Python's stable
sorted(...) on the total sort keys the engine uses. -/
def insertLe {α : Type} (le : α → α → Bool) (a : α) : List α → List α
  | [] => [a]
  | b :: bs => if le a b then a :: b :: bs else b :: insertLe le a bs

/-- Stable insertion sort by a boolean comparator. -/
def sortLe {α : Type} (le : α → α → Bool) : List α → List α
  | [] => []
  | a :: as => insertLe le a (sortLe le as)

/-- Flows that enter the graph: _build_graph skips flows with an empty
endpoint on either side. -/
def graphFlows (doc : FlowDoc) : List FlowRec :=
  doc.flows.filter (fun f => !(f.src == "") && !(f.dst == ""))

/-- Forward adjacency (self.graph): successors of u in flow-list order. -/
def forwardAdj (doc : FlowDoc) (u : String) : List String :=
  ((graphFlows doc).filter (fun f => f.src == u)).map (fun f => f.dst)

/-- Reverse adjacency (self.reverse_graph): predecessors of v in flow-list
order. -/
def reverseAdj (doc : FlowDoc) (v : String) : List String :=
  ((graphFlows doc).filter (fun f => f.dst == v)).map (fun f => f.src)

/-- First actor_id among the tasks matching an id in the given neighbour
list. Models the nested loops in _infer_gateway_actor: scan neighbours in
order, and for each one return the first task with that id. -/
def firstTaskActorAmong (doc : FlowDoc) (neighbours : List String) : Option String :=
  neighbours.findSome? (fun p =>
    (doc.tasks.find? (fun t => t.id == p)).map (fun t => t.actor_id))

/-- Gateway actor inference (_infer_gateway_actor): first task predecessor's
actor, else first task successor's actor, else the first actor's id, else
the empty string. -/
def inferGatewayActor (doc : FlowDoc) (gid : String) : String :=
  match firstTaskActorAmong doc (reverseAdj doc gid) with
  | some a => a
  | none =>
    match firstTaskActorAmong doc (forwardAdj doc gid) with
    | some a => a
    | none =>
      match doc.actors with
      | a :: _ => a.id
      | [] => ""

/-- First phase_id among the tasks matching an id in the given neighbour
list; the inner value may itself be none (a task without a phase still ends
the scan, exactly as the early return in the source does). -/
def firstTaskPhaseAmong (doc : FlowDoc) (neighbours : List String) : Option (Option String) :=
  neighbours.findSome? (fun p =>
    (doc.tasks.find? (fun t => t.id == p)).map (fun t => t.phase_id))

/-- Gateway phase inference (_infer_gateway_phase). -/
def inferGatewayPhase (doc : FlowDoc) (gid : String) : Option String :=
  match firstTaskPhaseAmong doc (reverseAdj doc gid) with
  | some p => p
  | none =>
    match firstTaskPhaseAmong doc (forwardAdj doc gid) with
    | some p => p
    | none => none

/-- Write a node into the node dict: replace the entry with the same id in
place, or append at the end (Python dict insertion semantics). -/
def upsertNode : List LayoutNode → LayoutNode → List LayoutNode
  | [], n => [n]
  | m :: rest, n => if m.node_id = n.node_id then n :: rest else m :: upsertNode rest n

/-- Node built for one task (_build_nodes, first loop). -/
def taskNode (t : TaskRec) : LayoutNode :=
  { node_id := t.id, kind := "task", label := t.name.getD t.id,
    actor_id := t.actor_id, phase_id := t.phase_id,
    lane_index := 0, rank_index := 0, order_in_rank := 0,
    width := 0, height := 0, x := 0, y := 0 }

/-- Node built for one gateway (_build_nodes, second loop). -/
def gatewayNode (doc : FlowDoc) (g : Gateway) : LayoutNode :=
  { node_id := g.id, kind := "gateway", label := g.name.getD "",
    actor_id := inferGatewayActor doc g.id, phase_id := inferGatewayPhase doc g.id,
    lane_index := 0, rank_index := 0, order_in_rank := 0,
    width := 0, height := 0, x := 0, y := 0 }

/-- _build_nodes: tasks first, then gateways, into the node dict. -/
def buildNodes (doc : FlowDoc) : List LayoutNode :=
  doc.gateways.foldl (fun ns g => upsertNode ns (gatewayNode doc g))
    (doc.tasks.foldl (fun ns t => upsertNode ns (taskNode t)) [])

/-- Lane index of an actor id: position in the actors list, where a later
duplicate actor id overwrites an earlier one (dict build order), and an
unknown actor id resolves to none (the caller defaults it to 0). -/
def actorToLane (actors : List Actor) (aid : String) : Option Nat :=
  lookupA ((actors.enum.map (fun p => (p.2.id, p.1))).reverse) aid

/-- _assign_lanes, first half: set every node's lane_index. -/
def assignLanes (doc : FlowDoc) (ns : List LayoutNode) : List LayoutNode :=
  ns.map (fun n => { n with lane_index := (actorToLane doc.actors n.actor_id).getD 0 })

/-- _assign_lanes, second half: one LayoutLane per actor in input order. -/
def mkLanes (doc : FlowDoc) : List LayoutLane :=
  doc.actors.enum.map (fun p =>
    { lane_index := p.1, actor_id := p.2.id, label := p.2.name.getD p.2.id,
      y := 0, height := 0 })

/-- Sum of the positive parts of the stored in-degrees; used as the
termination measure of the BFS loop. -/
def sumPos (m : List (String × Int)) : Nat :=
  (m.map (fun p => p.2.toNat)).sum

/-- Process the successor list of the node being dequeued: decrement each
successor's stored in-degree, and when it reaches zero assign the successor
rank rc + 1 and collect it for enqueueing. A successor absent from the
in-degree table is a KeyError in the source (in_degree[successor] -= 1 on a
plain dict), modelled as none. -/
def processSuccs : List String → Nat → List (String × Int) → List (String × Nat) →
    Option (List (String × Int) × List (String × Nat) × List String)
  | [], _, indeg, asg => some (indeg, asg, [])
  | s :: rest, rc, indeg, asg =>
    match lookupA indeg s with
    | none => none
    | some d =>
      let indeg' := setA indeg s (d - 1)
      if d - 1 = 0 then
        match processSuccs rest rc indeg' (asg ++ [(s, rc + 1)]) with
        | none => none
        | some res => some (res.1, res.2.1, s :: res.2.2)
      else
        processSuccs rest rc indeg' asg

theorem lookupA_setA_sum {m : List (String × Int)} {k : String} {d v : Int}
    (h : lookupA m k = some d) :
    sumPos (setA m k v) + d.toNat = sumPos m + v.toNat := by
  induction m with
  | nil => simp [lookupA] at h
  | cons p rest ih =>
    by_cases hk : p.1 = k
    · simp [lookupA, hk] at h
      subst h
      simp [setA, hk, sumPos]
      omega
    · simp [lookupA, hk] at h
      have := ih h
      simp [setA, hk, sumPos] at this ⊢
      omega

theorem processSuccs_bound :
    ∀ (S : List String) (rc : Nat) (indeg : List (String × Int))
      (asg : List (String × Nat)) res,
      processSuccs S rc indeg asg = some res →
      res.2.2.length + sumPos res.1 ≤ sumPos indeg := by
  intro S
  induction S with
  | nil =>
    intro rc indeg asg res h
    simp [processSuccs] at h
    simp [← h]
  | cons s rest ih =>
    intro rc indeg asg res h
    simp only [processSuccs] at h
    split at h
    · exact absurd h (by simp)
    case _ d hl =>
      have hsum := lookupA_setA_sum (v := d - 1) hl
      split at h
      case _ hz =>
        split at h
        · exact absurd h (by simp)
        case _ res' hrec =>
          have hih := ih rc (setA indeg s (d - 1)) (asg ++ [(s, rc + 1)]) res' hrec
          have hres := Option.some.inj h
          subst hres
          simp only [List.length_cons]
          have hd : d = 1 := by omega
          subst hd
          omega
      case _ hz =>
        have hih := ih rc (setA indeg s (d - 1)) asg res h
        have hle : (d - 1).toNat ≤ d.toNat := by omega
        omega

/-- BFS loop of _assign_ranks_by_topological_sort. The queue is a FIFO
deque; dequeue the front, look up its rank, process its successors, and
append the newly ready nodes at the back. The loop is modelled with an
explicit fuel parameter; bfsLoopF_fuel_irrelevant below proves that the
fuel bound used by bfsLoop never bites, which is exactly the termination
argument of the source loop: every iteration pops one queue entry and
total enqueues are bounded by the stored positive in-degrees. -/
def bfsStep (doc : FlowDoc) (indeg : List (String × Int)) (asg : List (String × Nat))
    (current : String) :
    Option (List (String × Int) × List (String × Nat) × List String) :=
  match lookupA asg current with
  | none => none
  | some rc => processSuccs (forwardAdj doc current) rc indeg asg

theorem bfsStep_bound {doc : FlowDoc} {indeg : List (String × Int)}
    {asg : List (String × Nat)} {current : String} {res}
    (h : bfsStep doc indeg asg current = some res) :
    res.2.2.length + sumPos res.1 ≤ sumPos indeg := by
  unfold bfsStep at h
  cases hl : lookupA asg current with
  | none => rw [hl] at h; exact absurd h (by simp)
  | some rc =>
    rw [hl] at h
    exact processSuccs_bound _ _ _ _ _ h

def bfsLoopF (doc : FlowDoc) : Nat → List (String × Int) → List (String × Nat) →
    List String → Option (List (String × Nat))
  | _, _, asg, [] => some asg
  | 0, _, _, _ :: _ => none
  | fuel + 1, indeg, asg, current :: rest =>
    match bfsStep doc indeg asg current with
    | none => none
    | some res => bfsLoopF doc fuel res.1 res.2.1 (rest ++ res.2.2)

/-- Any two sufficient fuel values give the same BFS result; hence the
fuel chosen by bfsLoop is as good as running the loop to completion, and
the source loop terminates. -/
theorem bfsLoopF_fuel_irrelevant (doc : FlowDoc) :
    ∀ (n m : Nat) (indeg : List (String × Int)) (asg : List (String × Nat))
      (q : List String),
      q.length + sumPos indeg ≤ n → q.length + sumPos indeg ≤ m →
      bfsLoopF doc n indeg asg q = bfsLoopF doc m indeg asg q := by
  intro n
  induction n with
  | zero =>
    intro m indeg asg q hn _
    have hq : q = [] := by
      cases q with
      | nil => rfl
      | cons a as => simp at hn
    subst hq
    cases m <;> rfl
  | succ n ih =>
    intro m indeg asg q hn hm
    cases q with
    | nil => cases m <;> rfl
    | cons current rest =>
      have hm1 : ∃ m', m = m' + 1 := by
        cases m with
        | zero => simp at hm
        | succ m' => exact ⟨m', rfl⟩
      obtain ⟨m', rfl⟩ := hm1
      show bfsLoopF doc (n + 1) indeg asg (current :: rest) =
        bfsLoopF doc (m' + 1) indeg asg (current :: rest)
      simp only [bfsLoopF]
      cases hp : bfsStep doc indeg asg current with
      | none => rfl
      | some res =>
        have hb := bfsStep_bound hp
        have hlen : (rest ++ res.2.2).length = rest.length + res.2.2.length :=
          List.length_append _ _
        apply ih
        · simp only [List.length_cons] at hn
          omega
        · simp only [List.length_cons] at hm
          omega

/-- The BFS loop with its sufficient fuel. -/
def bfsLoop (doc : FlowDoc) (indeg : List (String × Int)) (asg : List (String × Nat))
    (q : List String) : Option (List (String × Nat)) :=
  bfsLoopF doc (q.length + sumPos indeg) indeg asg q

/-- Initial in-degree table: one entry per known node id (the dict
comprehension over all_node_ids in the source). -/
def initialIndeg (doc : FlowDoc) (ids : List String) : List (String × Int) :=
  ids.map (fun nid => (nid, ((reverseAdj doc nid).length : Int)))

/-- Nodes seeded at rank 0: the known node ids with in-degree zero. -/
def bfsSeeds (doc : FlowDoc) (ids : List String) : List String :=
  ids.filter (fun nid => (reverseAdj doc nid).length == 0)

/-- Rank assignment computed by the BFS (the rank_assignment dict right
after the while loop); none models the KeyError raised on a flow target
that is not a known node. -/
def bfsAssignment (doc : FlowDoc) (ids : List String) : Option (List (String × Nat)) :=
  bfsLoop doc (initialIndeg doc ids) ((bfsSeeds doc ids).map (fun nid => (nid, 0)))
    (bfsSeeds doc ids)

/-- Maximum assigned rank, 0 when nothing was assigned. -/
def maxAsgRank (asg : List (String × Nat)) : Nat :=
  (asg.map Prod.snd).foldl max 0

/-- Ranks written back onto the nodes: a node missed by the BFS is placed
at (max assigned rank) + 1. -/
def rankedNodes (asg : List (String × Nat)) (ns : List LayoutNode) : List LayoutNode :=
  ns.map (fun n => { n with rank_index := (lookupA asg n.node_id).getD (maxAsgRank asg + 1) })

/-- One LayoutRank per index from 0 to the maximum rank in use (the source
creates them even when there are no nodes at all, giving a single rank 0). -/
def mkRankList (ns' : List LayoutNode) : List LayoutRank :=
  (List.range ((ns'.map (fun n => n.rank_index)).foldl max 0 + 1)).map (fun i =>
    { rank_index := i, phase_id := none, label := some ("列" ++ toString (i + 1)),
      x := 0, width := 0 })

/-- _assign_ranks_by_topological_sort: run the BFS, place every unreached
node at (max assigned rank) + 1, and create one LayoutRank per index from 0
to the maximum rank in use. -/
def assignRanksTopo (doc : FlowDoc) (ns : List LayoutNode) :
    Option (List LayoutNode × List LayoutRank) :=
  match bfsAssignment doc (ns.map (fun n => n.node_id)) with
  | none => none
  | some asg => some (rankedNodes asg ns, mkRankList (rankedNodes asg ns))

/-- Comparator for _order_nodes_in_rank: Python tuple order on
(lane_index, node_id). -/
def laneIdLe (a b : LayoutNode) : Bool :=
  decide (a.lane_index < b.lane_index ∨
    (a.lane_index = b.lane_index ∧ a.node_id ≤ b.node_id))

/-- Nodes of one rank sorted by (lane_index, node_id). -/
def rankPeers (ns : List LayoutNode) (r : Nat) : List LayoutNode :=
  sortLe laneIdLe (ns.filter (fun n => n.rank_index == r))

/-- _order_nodes_in_rank: each node's order_in_rank is its position in the
sorted list of the nodes sharing its rank. -/
def setOrderInRank (ns : List LayoutNode) : List LayoutNode :=
  ns.map (fun n =>
    { n with order_in_rank :=
        (rankPeers ns n.rank_index).findIdx (fun m => m.node_id == n.node_id) })

/-- _calculate_node_sizes: fixed 60 by 60 square for gateways; for tasks
width clamp(180, 300, 80 + 10 * label length) and height 80. -/
def sizeNode (n : LayoutNode) : LayoutNode :=
  if n.kind = "gateway" then { n with width := 60, height := 60 }
  else { n with width := max 180 (min 300 (80 + 10 * (n.label.length : ℚ))), height := 80 }

/-- _calculate_rank_widths: maximum node width in the rank (folded from 0,
all widths are positive), or the base task width 180 for a rank no node
occupies. -/
def rankWidth (ns : List LayoutNode) (r : Nat) : ℚ :=
  let ws := (ns.filter (fun n => n.rank_index == r)).map (fun n => n.width)
  if ws.isEmpty then 180 else ws.foldl max 0

/-- _calculate_lane_heights: an empty lane gets the minimum height 150;
otherwise max(150, maxNodeHeight * count + 20 * (count - 1) + 2 * 30). -/
def laneHeight (ns : List LayoutNode) (li : Nat) : ℚ :=
  let peers := ns.filter (fun n => n.lane_index == li)
  if peers.isEmpty then 150
  else
    let maxH := (peers.map (fun n => n.height)).foldl max 0
    max 150 (maxH * peers.length + 20 * ((peers.length - 1 : Nat) : ℚ) + 30 * 2)

/-- Cumulative x placement of the ranks: the first rank starts at
margin_x + lane_header_width, each next one at x + width + rank_spacing. -/
def placeRanks : List LayoutRank → ℚ → List LayoutRank
  | [], _ => []
  | r :: rest, x0 => { r with x := x0 } :: placeRanks rest (x0 + r.width + 100)

/-- Cumulative y placement of the lanes from margin_y. -/
def placeLanes : List LayoutLane → ℚ → List LayoutLane
  | [], _ => []
  | l :: rest, y0 => { l with y := y0 } :: placeLanes rest (y0 + l.height)

/-- Comparator on rank_index used by the coordinate pass. -/
def rankIdxLe (a b : LayoutRank) : Bool := decide (a.rank_index ≤ b.rank_index)

/-- Comparator on lane_index used by the coordinate pass. -/
def laneIdxLe (a b : LayoutLane) : Bool := decide (a.lane_index ≤ b.lane_index)

/-- Comparator on order_in_rank used for the cell stack. -/
def orderLe (a b : LayoutNode) : Bool := decide (a.order_in_rank ≤ b.order_in_rank)

/-- Vertical offset accumulated before position k of the cell stack:
heights plus 20 of node spacing for each earlier node. -/
def stackOffset (cell : List LayoutNode) (k : Nat) : ℚ :=
  ((cell.take k).map (fun m => m.height + 20)).sum

/-- Total content height of a cell stack. -/
def cellTotal (cell : List LayoutNode) : ℚ :=
  (cell.map (fun m => m.height)).sum + 20 * ((cell.length - 1 : Nat) : ℚ)

/-- Node placement of _calculate_coordinates: x centers the node in its
rank band (else margin_x); y stacks the nodes of the same (rank, lane) cell
sorted by order_in_rank and centers the stack in the lane band (else
margin_y when the node's lane does not exist). -/
def placeNode (ranks : List LayoutRank) (lanes : List LayoutLane)
    (ns : List LayoutNode) (n : LayoutNode) : LayoutNode :=
  let nx :=
    match ranks.find? (fun r => r.rank_index == n.rank_index) with
    | some r => { n with x := r.x + (r.width - n.width) / 2 }
    | none => { n with x := 50 }
  match lanes.find? (fun l => l.lane_index == n.lane_index) with
  | some l =>
    let cell := sortLe orderLe (ns.filter (fun m =>
      m.rank_index == n.rank_index && m.lane_index == n.lane_index))
    let startY := l.y + (l.height - cellTotal cell) / 2
    { nx with y := startY + stackOffset cell (cell.findIdx (fun m => m.node_id == n.node_id)) }
  | none => { nx with y := 50 }

/-- _calculate_orthogonal_waypoints: same lane and rank distance at most 1
gives a direct 2-point line, anything else the 4-point orthogonal path
through the horizontal midpoint. -/
def orthogonalWaypoints (sx sy ex ey : ℚ) (fn tn : LayoutNode) : List (ℚ × ℚ) :=
  if fn.lane_index = tn.lane_index ∧
      ((fn.rank_index : Int) - (tn.rank_index : Int)).natAbs ≤ 1 then
    [(sx, sy), (ex, ey)]
  else
    [(sx, sy), ((sx + ex) / 2, sy), ((sx + ex) / 2, ey), (ex, ey)]

/-- _route_edges: flows whose endpoints both resolve to known nodes become
routed edges (source right-edge midpoint to target left-edge midpoint);
the rest are silently dropped. -/
def routeEdges (doc : FlowDoc) (ns : List LayoutNode) : List LayoutEdge :=
  doc.flows.filterMap (fun f =>
    match ns.find? (fun n => n.node_id == f.src), ns.find? (fun n => n.node_id == f.dst) with
    | some fn, some tn =>
      let sx := fn.x + fn.width
      let sy := fn.y + fn.height / 2
      let ex := tn.x
      let ey := tn.y + tn.height / 2
      some { edge_id := f.fid.getD ("flow_" ++ f.src ++ "_" ++ f.dst),
             from_node := f.src, to_node := f.dst, condition := f.condition,
             waypoints := orthogonalWaypoints sx sy ex ey fn tn }
    | _, _ => none)

/-- Full intermediate state after calculate_layout has run all its passes. -/
structure LayoutResult where
  nodes : List LayoutNode
  lanes : List LayoutLane
  ranks : List LayoutRank
  edges : List LayoutEdge
deriving DecidableEq, Repr

/-- Empty layout result, used only to state closed witness propositions. -/
def emptyRes : LayoutResult :=
  { nodes := [], lanes := [], ranks := [], edges := [] }

/-- Geometric passes of calculate_layout after the structural ones: node
ordering, sizing, rank widths, lane heights, coordinate placement and edge
routing. -/
def geomPipeline (doc : FlowDoc) (ns2 : List LayoutNode) (ranks0 : List LayoutRank) :
    LayoutResult :=
  let ns4 := (setOrderInRank ns2).map sizeNode
  let ranks1 := ranks0.map (fun r => { r with width := rankWidth ns4 r.rank_index })
  let lanes1 := (mkLanes doc).map (fun l => { l with height := laneHeight ns4 l.lane_index })
  let ranks2 := placeRanks (sortLe rankIdxLe ranks1) (50 + 180)
  let lanes2 := placeLanes (sortLe laneIdxLe lanes1) 50
  let ns5 := ns4.map (placeNode ranks2 lanes2 ns4)
  { nodes := ns5, lanes := lanes2, ranks := ranks2, edges := routeEdges doc ns5 }

/-- The layout pipeline of calculate_layout, up to and including edge
routing; none models the KeyError escaping _assign_ranks_by_topological_sort. -/
def runLayout (doc : FlowDoc) : Option LayoutResult :=
  match assignRanksTopo doc (assignLanes doc (buildNodes doc)) with
  | none => none
  | some (ns2, ranks0) => some (geomPipeline doc ns2 ranks0)

/-- calculate_diagram_size: (800, 600) when there are no ranks or no lanes,
otherwise margins plus lane header plus rank widths and spacing, and margins
plus lane heights; int() truncation equals floor on these nonnegative
values. -/
def diagramSize (ranks : List LayoutRank) (lanes : List LayoutLane) : Int × Int :=
  if ranks.isEmpty || lanes.isEmpty then (800, 600)
  else
    ((50 * 2 + 180 + (ranks.map (fun r => r.width)).sum
        + 100 * ((ranks.length - 1 : Nat) : ℚ)).floor,
     (50 * 2 + (lanes.map (fun l => l.height)).sum : ℚ).floor)

/-- Output conversion at the end of calculate_layout. -/
def toOutput (doc : FlowDoc) (res : LayoutResult) :
    List (String × BPMNNodeLayout) × List BPMNLaneLayout :=
  let size := diagramSize res.ranks res.lanes
  (res.nodes.map (fun n =>
     (n.node_id,
      { node_id := n.node_id, label := n.label, x := n.x, y := n.y,
        width := n.width, height := n.height, kind := n.kind, lane_id := n.actor_id })),
   res.lanes.map (fun l =>
     { lane_id := l.actor_id, label := l.label, x := 50, y := l.y,
       width := (size.1 : ℚ) - 2 * 50, height := l.height }))

/-- calculate_layout: the pipeline plus the backward-compatibility output
conversion; none models a raised KeyError. -/
def calculate_layout (doc : FlowDoc) :
    Option (List (String × BPMNNodeLayout) × List BPMNLaneLayout) :=
  (runLayout doc).map (toOutput doc)

/-- calculate_diagram_size as observable after a completed layout run. -/
def calculate_diagram_size (doc : FlowDoc) : Option (Int × Int) :=
  (runLayout doc).map (fun res => diagramSize res.ranks res.lanes)

/-- Rank of a node in the completed layout, looked up by id. -/
def nodeRank (doc : FlowDoc) (nid : String) : Option Nat :=
  (runLayout doc).bind (fun res =>
    (res.nodes.find? (fun n => n.node_id == nid)).map (fun n => n.rank_index))

/-- Geometry of a node in the completed layout, looked up by id. -/
def nodeBox (doc : FlowDoc) (nid : String) : Option (ℚ × ℚ × ℚ × ℚ) :=
  (runLayout doc).bind (fun res =>
    (res.nodes.find? (fun n => n.node_id == nid)).map (fun n => (n.x, n.y, n.width, n.height)))

/-- Lane index of a node in the completed layout, looked up by id. -/
def nodeLane (doc : FlowDoc) (nid : String) : Option Nat :=
  (runLayout doc).bind (fun res =>
    (res.nodes.find? (fun n => n.node_id == nid)).map (fun n => n.lane_index))

/-- Axis-aligned boxes of two nodes do not overlap (at most boundary
contact). -/
def boxesDisjoint (a b : LayoutNode) : Prop :=
  a.x + a.width ≤ b.x ∨ b.x + b.width ≤ a.x ∨
  a.y + a.height ≤ b.y ∨ b.y + b.height ≤ a.y

instance (a b : LayoutNode) : Decidable (boxesDisjoint a b) := by
  unfold boxesDisjoint
  infer_instance

/-- Directed edge of the flow graph as built by _build_graph. -/
def edgeTo (doc : FlowDoc) (u v : String) : Prop :=
  u ∈ reverseAdj doc v

/-- The flow graph has no directed cycle. -/
def Acyclic (doc : FlowDoc) : Prop :=
  ∀ v, ¬ Relation.TransGen (edgeTo doc) v v

/-- Every edge of the built graph comes from a flow with nonempty
endpoints, and conversely. -/
theorem edgeTo_iff {doc : FlowDoc} {u v : String} :
    edgeTo doc u v ↔
      ∃ f ∈ doc.flows, f.src = u ∧ f.dst = v ∧ f.src ≠ "" ∧ f.dst ≠ "" := by
  unfold edgeTo reverseAdj graphFlows
  simp only [List.mem_map, List.mem_filter, Bool.and_eq_true, Bool.not_eq_true',
    beq_eq_false_iff_ne, beq_iff_eq]
  constructor
  · rintro ⟨f, ⟨⟨hf, hs, hd⟩, hdst⟩, hsrc⟩
    exact ⟨f, hf, hsrc, hdst, hs, hd⟩
  · rintro ⟨f, hf, hsrc, hdst, hs, hd⟩
    exact ⟨f, ⟨⟨hf, hs, hd⟩, hdst⟩, hsrc⟩

/-- A graph that admits a strictly edge-increasing weight has no cycle. -/
theorem acyclic_of_weight {doc : FlowDoc} (w : String → Nat)
    (hm : ∀ x y, edgeTo doc x y → w x < w y) : Acyclic doc := by
  intro v hv
  have key : ∀ a b, Relation.TransGen (edgeTo doc) a b → w a < w b := by
    intro a b h
    induction h with
    | single h1 => exact hm _ _ h1
    | tail _ h1 ih => exact lt_trans ih (hm _ _ h1)
  exact lt_irrefl _ (key v v hv)

/-- Flow record with defaulted id and condition, for the concrete claim
documents. -/
def mkFlow (s d : String) : FlowRec :=
  { fid := none, src := s, dst := d, condition := none }

/-- Task record with defaulted name and phase. -/
def mkTask (i a : String) : TaskRec :=
  { id := i, name := none, actor_id := a, phase_id := none }

/-- Actor record with defaulted name. -/
def mkActor (i : String) : Actor :=
  { id := i, name := none }

/-- The empty document of the C9 scenario. -/
def emptyDoc : FlowDoc := { actors := [], tasks := [], gateways := [], flows := [] }

/-- C9: the empty document produces an empty node map and an empty lane
list without error, and the computed diagram bounds equal the default
minimum canvas size (800, 600). -/
theorem c9_empty_document :
    calculate_layout emptyDoc = some ([], []) ∧
    calculate_diagram_size emptyDoc = some (800, 600) := by
  exact ⟨rfl, rfl⟩

/-- Document with tasks A, B on one actor and flows X→A (X unknown) and
A→B; its flow graph is acyclic. -/
def c1cex : FlowDoc :=
  { actors := [mkActor "a1"], tasks := [mkTask "A" "a1", mkTask "B" "a1"],
    gateways := [], flows := [mkFlow "X" "A", mkFlow "A" "B"] }

theorem c1cex_acyclic : Acyclic c1cex := by
  apply acyclic_of_weight (fun s => if s = "X" then 0 else if s = "A" then 1 else 2)
  intro x y h
  rw [edgeTo_iff] at h
  obtain ⟨f, hf, hsrc, hdst, -, -⟩ := h
  have hf2 : f = mkFlow "X" "A" ∨ f = mkFlow "A" "B" := by
    simpa [c1cex] using hf
  rcases hf2 with rfl | rfl <;> subst hsrc <;> subst hdst <;> decide

/-- C1 counterexample: the document c1cex has an acyclic flow graph, yet
after layout the flow A→B, whose endpoints are both known nodes, gets
rank(A) = rank(B) = 1 because the dangling flow X→A leaves both A and B
with nonzero in-degree, so rank monotonicity fails as stated. -/
theorem c1_counterexample :
    Acyclic c1cex ∧
    mkFlow "A" "B" ∈ c1cex.flows ∧
    nodeRank c1cex "A" = some 1 ∧
    nodeRank c1cex "B" = some 1 ∧
    ¬ (∀ rA rB : Nat, nodeRank c1cex "A" = some rA → nodeRank c1cex "B" = some rB →
        rA + 1 ≤ rB) := by
  refine ⟨c1cex_acyclic, by decide, rfl, rfl, fun hmono => ?_⟩
  have := hmono 1 1 rfl rfl
  omega

/-- The two-node cyclic document A→B→A of the C4 scenario. -/
def cycDoc : FlowDoc :=
  { actors := [mkActor "a1"], tasks := [mkTask "A" "a1", mkTask "B" "a1"],
    gateways := [], flows := [mkFlow "A" "B", mkFlow "B" "A"] }

/-- C4 counterexample: on the cyclic document A→B→A the layout completes,
but the two nodes receive the same rank 1, not distinct ranks. -/
theorem c4_counterexample :
    (runLayout cycDoc).isSome = true ∧
    nodeRank cycDoc "A" = some 1 ∧ nodeRank cycDoc "B" = some 1 ∧
    nodeRank cycDoc "A" = nodeRank cycDoc "B" := by
  exact ⟨rfl, rfl, rfl, rfl⟩

/-- Document whose second flow targets the unknown node id Y while its
first flow resolves (C6 failing input). -/
def c6doc : FlowDoc :=
  { actors := [mkActor "a1"], tasks := [mkTask "A" "a1", mkTask "B" "a1"],
    gateways := [], flows := [mkFlow "A" "B", mkFlow "A" "Y"] }

/-- C6: on a document with 2 flows of which exactly 1 references an unknown
node id, rank assignment decrements the missing in_degree key Y — a
KeyError in the source — so calculate_layout produces no result at all
instead of the claimed N - 1 routed edges. -/
theorem c6_dangling_edge_keyerror :
    calculate_layout c6doc = none ∧ c6doc.flows.length = 2 := by
  exact ⟨rfl, rfl⟩

/-- Document with one task and one flow to an unknown node id (C7 failing
input). -/
def c7doc : FlowDoc :=
  { actors := [mkActor "a1"], tasks := [mkTask "A" "a1"],
    gateways := [], flows := [mkFlow "A" "Y"] }

/-- C7: the malformed-but-parseable document with a flow to the unknown id
Y makes calculate_layout raise (KeyError on in_degree), modelled here as a
none result, refuting the no-raise guarantee. -/
theorem c7_keyerror_on_unknown_flow_target :
    calculate_layout c7doc = none := by
  exact rfl

/-- Gateway G with three task predecessors P1 (actor a1, lane 0), P2 and P3
(actor a2, lane 1): the most common predecessor lane is 1 yet the engine
takes P1's lane 0 (C3 counterexample input). -/
def c3doc : FlowDoc :=
  { actors := [mkActor "a1", mkActor "a2"],
    tasks := [mkTask "P1" "a1", mkTask "P2" "a2", mkTask "P3" "a2"],
    gateways := [{ id := "G", name := none }],
    flows := [mkFlow "P1" "G", mkFlow "P2" "G", mkFlow "P3" "G"] }

/-- Resolvable lanes of a gateway's task predecessors, in predecessor
order. This definition follows the specification's words ("the most common
predecessor lane") rather than the source, to state claim C3 against. -/
def specPredecessorLanes (doc : FlowDoc) (gid : String) : List Nat :=
  (reverseAdj doc gid).filterMap (fun p =>
    (doc.tasks.find? (fun t => t.id == p)).bind (fun t => actorToLane doc.actors t.actor_id))

/-- C3 counterexample: gateway G has predecessors with resolvable lanes
[0, 1, 1]; the most common lane is 1 (two occurrences against one), but
the engine assigns G lane 0, the lane of the first task predecessor. -/
theorem c3_counterexample :
    nodeLane c3doc "G" = some 0 ∧
    specPredecessorLanes c3doc "G" = [0, 1, 1] ∧
    (specPredecessorLanes c3doc "G").count 0 < (specPredecessorLanes c3doc "G").count 1 := by
  exact ⟨rfl, rfl, by decide⟩

/-- Document with no actors and two tasks (C2 counterexample input). -/
def c2cex : FlowDoc :=
  { actors := [], tasks := [mkTask "A" "", mkTask "B" ""],
    gateways := [], flows := [] }

/-- Layout result of c2cex. -/
def c2res : LayoutResult := (runLayout c2cex).getD emptyRes

/-- Node A of the c2cex layout. -/
def c2nodeA : LayoutNode := ((c2res.nodes.get? 0).getD (taskNode (mkTask "A" "")))

/-- Node B of the c2cex layout. -/
def c2nodeB : LayoutNode := ((c2res.nodes.get? 1).getD (taskNode (mkTask "A" "")))

/-- C2 counterexample: with an empty actors list both tasks fail the lane
lookup and fall back to y = 50 in the same rank, so the two distinct nodes
A and B occupy the identical rectangle — their boxes overlap. -/
theorem c2_counterexample :
    runLayout c2cex = some c2res ∧
    c2nodeA ∈ c2res.nodes ∧ c2nodeB ∈ c2res.nodes ∧
    c2nodeA.node_id ≠ c2nodeB.node_id ∧
    ¬ boxesDisjoint c2nodeA c2nodeB := by
  refine ⟨rfl, by with_unfolding_all decide, by with_unfolding_all decide,
    by decide, by with_unfolding_all decide⟩

/-- Document with no actors, one task and a dangling flow (C10
counterexample input). -/
def c10cex : FlowDoc :=
  { actors := [], tasks := [mkTask "A" ""], gateways := [], flows := [mkFlow "A" "Y"] }

/-- C10 counterexample: a document with an empty actors list and one task
need not produce a result at all — the dangling flow target Y makes rank
assignment raise (KeyError), modelled as none. -/
theorem c10_counterexample :
    calculate_layout c10cex = none := by
  exact rfl

/-- Decomposition of a successful layout run into its structural stage and
the geometric pipeline. -/
theorem runLayout_some {doc : FlowDoc} {res : LayoutResult} (h : runLayout doc = some res) :
    ∃ ns2 ranks0,
      assignRanksTopo doc (assignLanes doc (buildNodes doc)) = some (ns2, ranks0) ∧
      res = geomPipeline doc ns2 ranks0 := by
  unfold runLayout at h
  cases ha : assignRanksTopo doc (assignLanes doc (buildNodes doc)) with
  | none => rw [ha] at h; exact absurd h (by simp)
  | some p =>
    obtain ⟨a, b⟩ := p
    rw [ha] at h
    exact ⟨a, b, ha ▸ rfl, (Option.some.inj h).symm⟩

theorem placeNode_preserves (ranks : List LayoutRank) (lanes : List LayoutLane)
    (ns : List LayoutNode) (n : LayoutNode) :
    (placeNode ranks lanes ns n).node_id = n.node_id ∧
    (placeNode ranks lanes ns n).kind = n.kind ∧
    (placeNode ranks lanes ns n).actor_id = n.actor_id ∧
    (placeNode ranks lanes ns n).lane_index = n.lane_index ∧
    (placeNode ranks lanes ns n).rank_index = n.rank_index ∧
    (placeNode ranks lanes ns n).order_in_rank = n.order_in_rank ∧
    (placeNode ranks lanes ns n).width = n.width ∧
    (placeNode ranks lanes ns n).height = n.height := by
  unfold placeNode
  cases h1 : ranks.find? (fun r => r.rank_index == n.rank_index) <;>
    cases h2 : lanes.find? (fun l => l.lane_index == n.lane_index) <;>
      simp

theorem sizeNode_preserves (n : LayoutNode) :
    (sizeNode n).node_id = n.node_id ∧
    (sizeNode n).kind = n.kind ∧
    (sizeNode n).actor_id = n.actor_id ∧
    (sizeNode n).lane_index = n.lane_index ∧
    (sizeNode n).rank_index = n.rank_index ∧
    (sizeNode n).order_in_rank = n.order_in_rank := by
  unfold sizeNode
  split <;> simp

/-- y coordinate of a node placed when its lane index has no lane. -/
theorem placeNode_no_lane (ranks : List LayoutRank) (lanes : List LayoutLane)
    (ns : List LayoutNode) (n : LayoutNode)
    (h : lanes.find? (fun l => l.lane_index == n.lane_index) = none) :
    (placeNode ranks lanes ns n).y = 50 := by
  unfold placeNode
  cases h1 : ranks.find? (fun r => r.rank_index == n.rank_index) <;> simp [h]

/-- geomPipeline at the level of its record fields. -/
theorem geomPipeline_eq (doc : FlowDoc) (ns2 : List LayoutNode) (ranks0 : List LayoutRank) :
    geomPipeline doc ns2 ranks0 =
      { nodes := ((setOrderInRank ns2).map sizeNode).map
          (placeNode
            (placeRanks (sortLe rankIdxLe (ranks0.map (fun r =>
              { r with width := rankWidth ((setOrderInRank ns2).map sizeNode) r.rank_index })))
              (50 + 180))
            (placeLanes (sortLe laneIdxLe ((mkLanes doc).map (fun l =>
              { l with height := laneHeight ((setOrderInRank ns2).map sizeNode) l.lane_index })))
              50)
            ((setOrderInRank ns2).map sizeNode)),
        lanes := placeLanes (sortLe laneIdxLe ((mkLanes doc).map (fun l =>
          { l with height := laneHeight ((setOrderInRank ns2).map sizeNode) l.lane_index }))) 50,
        ranks := placeRanks (sortLe rankIdxLe (ranks0.map (fun r =>
          { r with width := rankWidth ((setOrderInRank ns2).map sizeNode) r.rank_index })))
          (50 + 180),
        edges := routeEdges doc (((setOrderInRank ns2).map sizeNode).map
          (placeNode
            (placeRanks (sortLe rankIdxLe (ranks0.map (fun r =>
              { r with width := rankWidth ((setOrderInRank ns2).map sizeNode) r.rank_index })))
              (50 + 180))
            (placeLanes (sortLe laneIdxLe ((mkLanes doc).map (fun l =>
              { l with height := laneHeight ((setOrderInRank ns2).map sizeNode) l.lane_index })))
              50)
            ((setOrderInRank ns2).map sizeNode))) } := rfl

/-- Edges of a layout result are routed against its own placed nodes. -/
theorem result_edges (doc : FlowDoc) (ns2 : List LayoutNode) (ranks0 : List LayoutRank) :
    (geomPipeline doc ns2 ranks0).edges = routeEdges doc (geomPipeline doc ns2 ranks0).nodes := rfl

/-- Lane assignment with an empty actors list gives lane 0 everywhere. -/
theorem actorToLane_nil (aid : String) : actorToLane [] aid = none := rfl

/-- C10 (amended): for every document with an empty actors list and at
least one task, whenever calculate_layout returns a result at all (a
dangling flow target makes it raise instead), every node has lane_index 0
and y = 50, the lane list is empty, and calculate_diagram_size returns the
fixed default (800, 600). -/
theorem c10_no_actors_fallback (doc : FlowDoc) (res : LayoutResult)
    (hA : doc.actors = []) (_hT : doc.tasks ≠ []) (h : runLayout doc = some res) :
    (∀ n ∈ res.nodes, n.lane_index = 0 ∧ n.y = 50) ∧
    res.lanes = [] ∧
    calculate_diagram_size doc = some (800, 600) := by
  obtain ⟨ns2, ranks0, ha, hres⟩ := runLayout_some h
  have hlanes : (mkLanes doc) = [] := by simp [mkLanes, hA]
  have hlanes2 : res.lanes = [] := by
    rw [hres, geomPipeline_eq]
    simp [hlanes, sortLe, placeLanes]
  refine ⟨?_, hlanes2, ?_⟩
  · intro n hn
    rw [hres, geomPipeline_eq] at hn
    simp only [List.mem_map] at hn
    obtain ⟨m, ⟨m1, hm1, hm1m⟩, hmn⟩ := hn
    have hy : n.y = 50 := by
      rw [← hmn]
      apply placeNode_no_lane
      simp [hlanes, sortLe, placeLanes]
    have hlane : n.lane_index = m.lane_index := by
      rw [← hmn]
      exact (placeNode_preserves _ _ _ _).2.2.2.1
    have hlane1 : m.lane_index = m1.lane_index := by
      rw [← hm1m]
      exact (sizeNode_preserves _).2.2.2.1
    unfold setOrderInRank at hm1
    obtain ⟨m0, hm0, hm0m⟩ := List.mem_map.mp hm1
    have hlane0 : m1.lane_index = m0.lane_index := by rw [← hm0m]
    have hm0ranked : ∃ m9 ∈ assignLanes doc (buildNodes doc), m0.lane_index = m9.lane_index := by
      unfold assignRanksTopo at ha
      cases hb : bfsAssignment doc ((assignLanes doc (buildNodes doc)).map
          (fun x => x.node_id)) with
      | none => rw [hb] at ha; exact absurd ha (by simp)
      | some asg =>
        rw [hb] at ha
        have hns2 : ns2 = rankedNodes asg (assignLanes doc (buildNodes doc)) :=
          congrArg Prod.fst (Option.some.inj ha).symm
        rw [hns2] at hm0
        obtain ⟨m9, hm9, hm9m⟩ := List.mem_map.mp hm0
        exact ⟨m9, hm9, by rw [← hm9m]⟩
    obtain ⟨m9, hm9, hm9eq⟩ := hm0ranked
    obtain ⟨m8, _, hm8m⟩ := List.mem_map.mp hm9
    have : m9.lane_index = 0 := by
      rw [← hm8m]
      simp [hA, actorToLane_nil]
    refine ⟨?_, hy⟩
    rw [hlane, hlane1, hlane0, hm9eq, this]
  · unfold calculate_diagram_size
    rw [h]
    simp [diagramSize, hlanes2]

/-- Document with no actors and one task (C10 witness input). -/
def c10doc : FlowDoc := { actors := [], tasks := [mkTask "A" ""], gateways := [], flows := [] }

/-- Layout result of c10doc. -/
def c10res : LayoutResult := (runLayout c10doc).getD emptyRes

theorem c10_no_actors_fallback_witness :
    c10doc.actors = [] ∧ c10doc.tasks ≠ [] ∧ runLayout c10doc = some c10res ∧
    ((∀ n ∈ c10res.nodes, n.lane_index = 0 ∧ n.y = 50) ∧ c10res.lanes = [] ∧
      calculate_diagram_size c10doc = some (800, 600)) :=
  ⟨rfl, by decide, rfl, c10_no_actors_fallback c10doc c10res rfl (by decide) rfl⟩

/-- Inserting below the head keeps a list whose head already dominates. -/
theorem insertLe_eq_cons {α : Type} (le : α → α → Bool) (a : α) (l : List α)
    (h : ∀ b ∈ l.head?, le a b = true) : insertLe le a l = a :: l := by
  cases l with
  | nil => rfl
  | cons b bs => simp [insertLe, h b rfl]

/-- Sorting an already sorted list is the identity; Python's sorted(...) on
the engine's already ordered lane and rank lists changes nothing. -/
theorem sortLe_eq_self {α : Type} (le : α → α → Bool) :
    ∀ l : List α, l.Pairwise (fun a b => le a b = true) → sortLe le l = l := by
  intro l
  induction l with
  | nil => intro _; rfl
  | cons a as ih =>
    intro h
    rw [List.pairwise_cons] at h
    simp only [sortLe]
    rw [ih h.2, insertLe_eq_cons]
    intro b hb
    cases as with
    | nil => simp at hb
    | cons c cs =>
      simp at hb
      rw [← hb]
      exact h.1 c (List.mem_cons_self _ _)

/-- placeLanes only rewrites the y fields. -/
theorem placeLanes_map_proj {β : Type} (f : LayoutLane → β)
    (hf : ∀ l y, f { l with y := y } = f l) :
    ∀ (ls : List LayoutLane) (y0 : ℚ), (placeLanes ls y0).map f = ls.map f := by
  intro ls
  induction ls with
  | nil => intro _; rfl
  | cons l rest ih =>
    intro y0
    simp only [placeLanes, List.map_cons]
    rw [hf, ih]

/-- Head y of the placed lanes is the starting offset. -/
theorem placeLanes_head_y : ∀ (ls : List LayoutLane) (y0 : ℚ) (l : LayoutLane),
    (placeLanes ls y0).head? = some l → l.y = y0 := by
  intro ls
  cases ls with
  | nil => intro y0 l h; simp [placeLanes] at h
  | cons a rest =>
    intro y0 l h
    simp [placeLanes] at h
    rw [← h]

/-- Lanes tile: every consecutive pair of placed lanes satisfies
y + height = next y. -/
theorem placeLanes_chain : ∀ (ls : List LayoutLane) (y0 : ℚ),
    List.Chain' (fun a b => a.y + a.height = b.y) (placeLanes ls y0) := by
  intro ls
  induction ls with
  | nil => intro _; simp [placeLanes]
  | cons l rest ih =>
    intro y0
    simp only [placeLanes]
    rw [List.chain'_cons']
    refine ⟨?_, ih _⟩
    intro b hb
    have hy := placeLanes_head_y rest _ b hb
    simp [hy]

/-- Every lane height the engine computes is positive. -/
theorem laneHeight_pos (ns : List LayoutNode) (li : Nat) : 0 < laneHeight ns li := by
  by_cases h : (List.filter (fun n => n.lane_index == li) ns).isEmpty = true
  · simp [laneHeight, h]
  · simp only [laneHeight, h, Bool.false_eq_true, if_false]
    exact lt_of_lt_of_le (by norm_num) (le_max_left _ _)

/-- Lane indices of the built lanes are 0, 1, 2, ... in actor order. -/
theorem mkLanes_idx (doc : FlowDoc) :
    (mkLanes doc).map (fun l => l.lane_index) = List.range doc.actors.length := by
  unfold mkLanes
  rw [List.map_map]
  exact List.enum_map_fst _

/-- Actor ids of the built lanes follow the input actor order. -/
theorem mkLanes_actor (doc : FlowDoc) :
    (mkLanes doc).map (fun l => l.actor_id) = doc.actors.map (fun a => a.id) := by
  unfold mkLanes
  rw [List.map_map]
  have h2 : doc.actors.enum.map Prod.snd = doc.actors := List.enum_map_snd _
  calc doc.actors.enum.map ((fun l => l.actor_id) ∘ fun p =>
        ({ lane_index := p.1, actor_id := p.2.id, label := p.2.name.getD p.2.id,
           y := 0, height := 0 } : LayoutLane))
      = doc.actors.enum.map (fun p => p.2.id) := rfl
    _ = (doc.actors.enum.map Prod.snd).map (fun a => a.id) := by rw [List.map_map]; rfl
    _ = doc.actors.map (fun a => a.id) := by rw [h2]

/-- A lane list whose lane indices are 0, 1, 2, ... is pairwise ordered for
the coordinate pass comparator. -/
theorem lanes_pairwise_of_idx (ls : List LayoutLane)
    (h : ls.map (fun l => l.lane_index) = List.range ls.length) :
    ls.Pairwise (fun a b => laneIdxLe a b = true) := by
  have hr : (ls.map (fun l => l.lane_index)).Pairwise (· < ·) := by
    rw [h]; exact List.pairwise_lt_range _
  rw [List.pairwise_map] at hr
  exact hr.imp (fun hlt => by simp [laneIdxLe]; omega)

/-- C8: after calculate_layout the lane list follows the input actors
order; every consecutive pair of lane bands tiles exactly
(y + height = next y); and every lane's height is positive. -/
theorem c8_lane_tiling (doc : FlowDoc)
    (out : List (String × BPMNNodeLayout) × List BPMNLaneLayout)
    (h : calculate_layout doc = some out) :
    out.2.map (fun l => l.lane_id) = doc.actors.map (fun a => a.id) ∧
    List.Chain' (fun a b => a.y + a.height = b.y) out.2 ∧
    ∀ l ∈ out.2, 0 < l.height := by
  unfold calculate_layout at h
  cases hr : runLayout doc with
  | none => rw [hr] at h; exact absurd h (by simp)
  | some res =>
    rw [hr] at h
    have hout : out = toOutput doc res := (Option.some.inj h).symm
    obtain ⟨ns2, ranks0, _, hres⟩ := runLayout_some hr
    have hsorted : sortLe laneIdxLe ((mkLanes doc).map (fun l =>
        { l with height := laneHeight ((setOrderInRank ns2).map sizeNode) l.lane_index })) =
        (mkLanes doc).map (fun l =>
        { l with height := laneHeight ((setOrderInRank ns2).map sizeNode) l.lane_index }) := by
      apply sortLe_eq_self
      apply lanes_pairwise_of_idx
      have hidx : ((mkLanes doc).map (fun l =>
          { l with height := laneHeight ((setOrderInRank ns2).map sizeNode) l.lane_index })).map
            (fun l => l.lane_index) =
          (mkLanes doc).map (fun l => l.lane_index) := by
        rw [List.map_map]; rfl
      rw [hidx, mkLanes_idx]
      congr 1
      simp [mkLanes]
    have hlanesres : res.lanes = placeLanes ((mkLanes doc).map (fun l =>
        { l with height := laneHeight ((setOrderInRank ns2).map sizeNode) l.lane_index })) 50 := by
      rw [hres, geomPipeline_eq, hsorted]
    have hout2 : out.2 = res.lanes.map (fun l =>
        ({ lane_id := l.actor_id, label := l.label, x := 50, y := l.y,
           width := ((diagramSize res.ranks res.lanes).1 : ℚ) - 2 * 50,
           height := l.height } : BPMNLaneLayout)) := by
      rw [hout]; rfl
    refine ⟨?_, ?_, ?_⟩
    · rw [hout2, List.map_map]
      have h1 : (fun (l : BPMNLaneLayout) => l.lane_id) ∘ (fun l =>
          ({ lane_id := l.actor_id, label := l.label, x := 50, y := l.y,
             width := ((diagramSize res.ranks res.lanes).1 : ℚ) - 2 * 50,
             height := l.height } : BPMNLaneLayout)) =
          fun (l : LayoutLane) => l.actor_id := rfl
      rw [h1, hlanesres,
        placeLanes_map_proj (fun l => l.actor_id) (fun _ _ => rfl), List.map_map]
      have h2 : (fun (l : LayoutLane) => l.actor_id) ∘ (fun l =>
          { l with height := laneHeight ((setOrderInRank ns2).map sizeNode) l.lane_index }) =
          fun (l : LayoutLane) => l.actor_id := rfl
      rw [h2, mkLanes_actor]
    · rw [hout2, List.chain'_map, hlanesres]
      exact placeLanes_chain _ _
    · intro l hl
      rw [hout2] at hl
      obtain ⟨lane, hlane, hconv⟩ := List.mem_map.mp hl
      have hh : l.height = lane.height := by rw [← hconv]
      rw [hh]
      have hmem : lane.height ∈ (placeLanes ((mkLanes doc).map (fun l =>
          { l with height := laneHeight ((setOrderInRank ns2).map sizeNode) l.lane_index }))
          50).map (fun l => l.height) := by
        rw [← hlanesres]
        exact List.mem_map_of_mem _ hlane
      rw [placeLanes_map_proj (fun l => l.height) (fun _ _ => rfl), List.map_map] at hmem
      obtain ⟨l0, _, hv⟩ := List.mem_map.mp hmem
      rw [← hv]
      exact laneHeight_pos _ _

/-- Simple one-actor chain document A→B used as a witness input. -/
def chainDoc : FlowDoc :=
  { actors := [mkActor "a1"], tasks := [mkTask "A" "a1", mkTask "B" "a1"],
    gateways := [], flows := [mkFlow "A" "B"] }

/-- Output of calculate_layout on chainDoc. -/
def chainOut : List (String × BPMNNodeLayout) × List BPMNLaneLayout :=
  (calculate_layout chainDoc).getD ([], [])

theorem c8_lane_tiling_witness :
    calculate_layout chainDoc = some chainOut ∧
    (chainOut.2.map (fun l => l.lane_id) = chainDoc.actors.map (fun a => a.id) ∧
     List.Chain' (fun a b => a.y + a.height = b.y) chainOut.2 ∧
     ∀ l ∈ chainOut.2, 0 < l.height) :=
  ⟨rfl, c8_lane_tiling chainDoc chainOut rfl⟩

/-- Every routed edge comes from a flow whose endpoints both resolve, and
its waypoints are the orthogonal route between the two connection points. -/
theorem routeEdges_mem {doc : FlowDoc} {ns : List LayoutNode} {e : LayoutEdge}
    (h : e ∈ routeEdges doc ns) :
    ∃ f ∈ doc.flows, ∃ fn tn,
      ns.find? (fun n => n.node_id == f.src) = some fn ∧
      ns.find? (fun n => n.node_id == f.dst) = some tn ∧
      e.from_node = f.src ∧ e.to_node = f.dst ∧
      e.waypoints = orthogonalWaypoints (fn.x + fn.width) (fn.y + fn.height / 2)
        tn.x (tn.y + tn.height / 2) fn tn := by
  unfold routeEdges at h
  obtain ⟨f, hf, hsome⟩ := List.mem_filterMap.mp h
  cases h1 : ns.find? (fun n => n.node_id == f.src) with
  | none => rw [h1] at hsome; simp at hsome
  | some fn =>
    cases h2 : ns.find? (fun n => n.node_id == f.dst) with
    | none => rw [h1, h2] at hsome; simp at hsome
    | some tn =>
      rw [h1, h2] at hsome
      have he := Option.some.inj hsome
      refine ⟨f, hf, fn, tn, h1, h2, ?_, ?_, ?_⟩ <;> rw [← he]

/-- C5: every routed edge of a completed layout connects two resolved
nodes, has at least 2 waypoints, starts at the source node's right-edge
midpoint and ends at the target node's left-edge midpoint; it is exactly
the direct 2-point line when the nodes share a lane and their ranks differ
by at most 1, and exactly the 4-point orthogonal path through the
horizontal midpoint of the two connection points otherwise. -/
theorem c5_edge_routing (doc : FlowDoc) (res : LayoutResult)
    (h : runLayout doc = some res) :
    ∀ e ∈ res.edges, ∃ fn tn,
      res.nodes.find? (fun n => n.node_id == e.from_node) = some fn ∧
      res.nodes.find? (fun n => n.node_id == e.to_node) = some tn ∧
      2 ≤ e.waypoints.length ∧
      e.waypoints.head? = some (fn.x + fn.width, fn.y + fn.height / 2) ∧
      e.waypoints.getLast? = some (tn.x, tn.y + tn.height / 2) ∧
      ((fn.lane_index = tn.lane_index ∧
          ((fn.rank_index : Int) - (tn.rank_index : Int)).natAbs ≤ 1) →
        e.waypoints = [(fn.x + fn.width, fn.y + fn.height / 2),
          (tn.x, tn.y + tn.height / 2)]) ∧
      (¬ (fn.lane_index = tn.lane_index ∧
          ((fn.rank_index : Int) - (tn.rank_index : Int)).natAbs ≤ 1) →
        e.waypoints = [(fn.x + fn.width, fn.y + fn.height / 2),
          ((fn.x + fn.width + tn.x) / 2, fn.y + fn.height / 2),
          ((fn.x + fn.width + tn.x) / 2, tn.y + tn.height / 2),
          (tn.x, tn.y + tn.height / 2)]) := by
  intro e he
  have hedges : res.edges = routeEdges doc res.nodes := by
    obtain ⟨ns2, ranks0, _, hres⟩ := runLayout_some h
    rw [hres]
    rfl
  rw [hedges] at he
  obtain ⟨f, hf, fn, tn, h1, h2, hfrom, hto, hwp⟩ := routeEdges_mem he
  refine ⟨fn, tn, by rw [hfrom]; exact h1, by rw [hto]; exact h2, ?_, ?_, ?_, ?_, ?_⟩ <;>
    rw [hwp] <;> unfold orthogonalWaypoints <;>
      by_cases hc : fn.lane_index = tn.lane_index ∧
        ((fn.rank_index : Int) - (tn.rank_index : Int)).natAbs ≤ 1 <;>
        simp [hc]

/-- Layout result of chainDoc. -/
def chainRes : LayoutResult := (runLayout chainDoc).getD emptyRes

theorem c5_edge_routing_witness :
    runLayout chainDoc = some chainRes ∧
    (∀ e ∈ chainRes.edges, ∃ fn tn,
      chainRes.nodes.find? (fun n => n.node_id == e.from_node) = some fn ∧
      chainRes.nodes.find? (fun n => n.node_id == e.to_node) = some tn ∧
      2 ≤ e.waypoints.length ∧
      e.waypoints.head? = some (fn.x + fn.width, fn.y + fn.height / 2) ∧
      e.waypoints.getLast? = some (tn.x, tn.y + tn.height / 2) ∧
      ((fn.lane_index = tn.lane_index ∧
          ((fn.rank_index : Int) - (tn.rank_index : Int)).natAbs ≤ 1) →
        e.waypoints = [(fn.x + fn.width, fn.y + fn.height / 2),
          (tn.x, tn.y + tn.height / 2)]) ∧
      (¬ (fn.lane_index = tn.lane_index ∧
          ((fn.rank_index : Int) - (tn.rank_index : Int)).natAbs ≤ 1) →
        e.waypoints = [(fn.x + fn.width, fn.y + fn.height / 2),
          ((fn.x + fn.width + tn.x) / 2, fn.y + fn.height / 2),
          ((fn.x + fn.width + tn.x) / 2, tn.y + tn.height / 2),
          (tn.x, tn.y + tn.height / 2)])) :=
  ⟨rfl, c5_edge_routing chainDoc chainRes rfl⟩

/-- C4 (amended): rank assignment always terminates (the explicit fuel of
the modelled BFS loop is irrelevant once sufficient, which is the source
loop's termination argument); every node not reached by the zero-in-degree
BFS is placed at (max assigned rank) + 1; and on the two-node cyclic
document A→B→A the layout completes with both nodes receiving the same
finite non-negative rank 1 — equal, not distinct. -/
theorem c4_cyclic_handling :
    (∀ (doc : FlowDoc) (n m : Nat) (indeg : List (String × Int))
       (asg : List (String × Nat)) (q : List String),
       q.length + sumPos indeg ≤ n → q.length + sumPos indeg ≤ m →
       bfsLoopF doc n indeg asg q = bfsLoopF doc m indeg asg q) ∧
    (∀ (doc : FlowDoc) (ns ns' : List LayoutNode) (ranks : List LayoutRank)
       (asg : List (String × Nat)),
       assignRanksTopo doc ns = some (ns', ranks) →
       bfsAssignment doc (ns.map (fun x => x.node_id)) = some asg →
       ∀ n ∈ ns', lookupA asg n.node_id = none → n.rank_index = maxAsgRank asg + 1) ∧
    (runLayout cycDoc).isSome = true ∧
    nodeRank cycDoc "A" = some 1 ∧ nodeRank cycDoc "B" = some 1 := by
  refine ⟨bfsLoopF_fuel_irrelevant, ?_, rfl, rfl, rfl⟩
  intro doc ns ns' ranks asg ha hasg n hn hlook
  unfold assignRanksTopo at ha
  rw [hasg] at ha
  have hns' : ns' = rankedNodes asg ns := (congrArg Prod.fst (Option.some.inj ha)).symm
  rw [hns'] at hn
  unfold rankedNodes at hn
  obtain ⟨m, _, hmn⟩ := List.mem_map.mp hn
  have hid : n.node_id = m.node_id := by rw [← hmn]
  rw [hid] at hlook
  rw [← hmn]
  simp [hlook]

/-- Intermediate node list of cycDoc before rank assignment. -/
def cycNs : List LayoutNode := assignLanes cycDoc (buildNodes cycDoc)

/-- Rank-assignment output of cycDoc. -/
def cycTopo : List LayoutNode × List LayoutRank := (assignRanksTopo cycDoc cycNs).getD ([], [])

/-- First ranked node of cycDoc. -/
def cycNodeA : LayoutNode := (cycTopo.1.get? 0).getD (taskNode (mkTask "A" "a1"))

theorem c4_cyclic_handling_witness :
    (([] : List String).length + sumPos [] ≤ 3 ∧ ([] : List String).length + sumPos [] ≤ 4 ∧
      bfsLoopF cycDoc 3 [] [] [] = bfsLoopF cycDoc 4 [] [] []) ∧
    assignRanksTopo cycDoc cycNs = some (cycTopo.1, cycTopo.2) ∧
    bfsAssignment cycDoc (cycNs.map (fun x => x.node_id)) = some [] ∧
    cycNodeA ∈ cycTopo.1 ∧ lookupA ([] : List (String × Nat)) cycNodeA.node_id = none ∧
    cycNodeA.rank_index = maxAsgRank [] + 1 := by
  refine ⟨⟨by decide, by decide,
      c4_cyclic_handling.1 cycDoc 3 4 [] [] [] (by decide) (by decide)⟩,
    rfl, rfl, by decide, rfl,
    c4_cyclic_handling.2.1 cycDoc cycNs cycTopo.1 cycTopo.2 ([] : List (String × Nat))
      rfl rfl cycNodeA (by decide) rfl⟩

/-- find? commutes with mapping an id-preserving node transformation. -/
theorem find?_map_id (f : LayoutNode → LayoutNode)
    (hid : ∀ m, (f m).node_id = m.node_id) (ns : List LayoutNode) (k : String) :
    (ns.map f).find? (fun n => n.node_id == k) =
      (ns.find? (fun n => n.node_id == k)).map f := by
  induction ns with
  | nil => rfl
  | cons m rest ih =>
    simp only [List.map_cons, List.find?]
    rw [hid m]
    cases h : (m.node_id == k) with
    | true => rfl
    | false => simpa using ih

/-- Writing a node into the dict makes it the node found under its id. -/
theorem upsert_find_self (ns : List LayoutNode) (n : LayoutNode) :
    (upsertNode ns n).find? (fun m => m.node_id == n.node_id) = some n := by
  induction ns with
  | nil => simp [upsertNode, List.find?]
  | cons m rest ih =>
    by_cases h : m.node_id = n.node_id
    · simp [upsertNode, h, List.find?]
    · simp only [upsertNode, if_neg h, List.find?]
      have hb : (m.node_id == n.node_id) = false := by simp [h]
      rw [hb]
      exact ih

/-- Writing a node into the dict leaves every other key's lookup alone. -/
theorem upsert_find_other (ns : List LayoutNode) (n : LayoutNode) (k : String)
    (hk : k ≠ n.node_id) :
    (upsertNode ns n).find? (fun m => m.node_id == k) =
      ns.find? (fun m => m.node_id == k) := by
  have hnk : (n.node_id == k) = false := by simp; exact fun hc => hk hc.symm
  induction ns with
  | nil =>
    simp only [upsertNode, List.find?]
    rw [hnk]
  | cons m rest ih =>
    by_cases h : m.node_id = n.node_id
    · simp only [upsertNode, if_pos h, List.find?]
      rw [hnk, h, hnk]
    · simp only [upsertNode, if_neg h, List.find?]
      cases h2 : (m.node_id == k) with
      | true => rfl
      | false => exact ih

/-- Folding gateway upserts: the lookup of an id is the node of the last
gateway with that id, or the prior dict's lookup when no gateway has it. -/
theorem foldl_upsert_gateway_find (doc : FlowDoc) (gid : String) :
    ∀ (gs : List Gateway) (init : List LayoutNode),
      (gs.foldl (fun ns g => upsertNode ns (gatewayNode doc g)) init).find?
          (fun m => m.node_id == gid) =
        match gs.reverse.find? (fun g => g.id == gid) with
        | some g => some (gatewayNode doc g)
        | none => init.find? (fun m => m.node_id == gid) := by
  intro gs
  induction gs with
  | nil => intro init; rfl
  | cons g rest ih =>
    intro init
    simp only [List.foldl_cons, List.reverse_cons]
    rw [ih, List.find?_append]
    cases hr : rest.reverse.find? (fun g => g.id == gid) with
    | some g' => simp
    | none =>
      simp only [Option.none_or]
      by_cases hgid : g.id = gid
      · have h1 : List.find? (fun g => g.id == gid) [g] = some g := by simp [List.find?, hgid]
        rw [h1]
        have h2 : (gatewayNode doc g).node_id = g.id := rfl
        rw [← hgid, ← h2]
        exact upsert_find_self init (gatewayNode doc g)
      · have hb : (g.id == gid) = false := by simp [hgid]
        have h1 : List.find? (fun g => g.id == gid) [g] = none := by
          simp only [List.find?]
          rw [hb]
        rw [h1]
        exact upsert_find_other init (gatewayNode doc g) gid (by simp [gatewayNode]; exact fun hc => hgid hc.symm)

/-- Looking up a gateway id in the built node dict yields the gateway node
of the last gateway with that id (tasks are built first, so any task with
the same id is overwritten). -/
theorem buildNodes_gateway_find (doc : FlowDoc) (g : Gateway) (hg : g ∈ doc.gateways) :
    ∃ g' ∈ doc.gateways, g'.id = g.id ∧
      (buildNodes doc).find? (fun m => m.node_id == g.id) = some (gatewayNode doc g') := by
  unfold buildNodes
  rw [foldl_upsert_gateway_find]
  cases hr : doc.gateways.reverse.find? (fun x => x.id == g.id) with
  | some g' =>
    refine ⟨g', List.mem_reverse.mp (List.mem_of_find?_eq_some hr), ?_, rfl⟩
    have := List.find?_some hr
    simpa using this
  | none =>
    exfalso
    have hall := List.find?_eq_none.mp hr
    exact absurd (by simp : ((fun x => x.id == g.id) g) = true)
      (hall g (List.mem_reverse.mpr hg))

/-- Nodes of the geometric pipeline in explicit form. -/
theorem geomPipeline_nodes (doc : FlowDoc) (ns2 : List LayoutNode) (ranks0 : List LayoutRank) :
    (geomPipeline doc ns2 ranks0).nodes =
      ((setOrderInRank ns2).map sizeNode).map
        (placeNode
          (placeRanks (sortLe rankIdxLe (ranks0.map (fun r =>
            { r with width := rankWidth ((setOrderInRank ns2).map sizeNode) r.rank_index })))
            (50 + 180))
          (placeLanes (sortLe laneIdxLe ((mkLanes doc).map (fun l =>
            { l with height := laneHeight ((setOrderInRank ns2).map sizeNode) l.lane_index })))
            50)
          ((setOrderInRank ns2).map sizeNode)) := rfl

/-- C3 (amended): a gateway node's actor is the actor_id of the first flow
predecessor that is a task if such a predecessor exists, else of the first
flow successor that is a task, else the first actor's id (empty when there
are no actors); its lane index is that actor's position in the actors list
(defaulting to 0), not the most common predecessor lane. -/
theorem c3_gateway_lane (doc : FlowDoc) (res : LayoutResult) (g : Gateway)
    (hres : runLayout doc = some res) (hg : g ∈ doc.gateways) (n : LayoutNode)
    (hn : res.nodes.find? (fun m => m.node_id == g.id) = some n) :
    n.actor_id = inferGatewayActor doc g.id ∧
    n.lane_index = (actorToLane doc.actors n.actor_id).getD 0 ∧
    (∀ a, firstTaskActorAmong doc (reverseAdj doc g.id) = some a → n.actor_id = a) ∧
    (firstTaskActorAmong doc (reverseAdj doc g.id) = none →
      ∀ a, firstTaskActorAmong doc (forwardAdj doc g.id) = some a → n.actor_id = a) ∧
    (firstTaskActorAmong doc (reverseAdj doc g.id) = none →
      firstTaskActorAmong doc (forwardAdj doc g.id) = none →
      n.actor_id = ((doc.actors.head?).map (fun a => a.id)).getD "") := by
  obtain ⟨ns2, ranks0, ha, hres2⟩ := runLayout_some hres
  rw [hres2, geomPipeline_nodes] at hn
  rw [find?_map_id _ (fun m => (placeNode_preserves _ _ _ m).1) _ _] at hn
  rw [find?_map_id sizeNode (fun m => (sizeNode_preserves m).1) _ _] at hn
  unfold assignRanksTopo at ha
  cases hb : bfsAssignment doc
      ((assignLanes doc (buildNodes doc)).map (fun x => x.node_id)) with
  | none => rw [hb] at ha; exact absurd ha (by simp)
  | some asg =>
    rw [hb] at ha
    have hns2 : ns2 = rankedNodes asg (assignLanes doc (buildNodes doc)) :=
      (congrArg Prod.fst (Option.some.inj ha)).symm
    rw [hns2] at hn
    unfold setOrderInRank at hn
    rw [find?_map_id (fun x =>
      { x with order_in_rank := List.findIdx (fun m => m.node_id == x.node_id) (rankPeers (rankedNodes asg (assignLanes doc (buildNodes doc))) x.rank_index) })
      (fun m => rfl) _ _] at hn
    unfold rankedNodes at hn
    rw [find?_map_id (fun x =>
      { x with rank_index := (lookupA asg x.node_id).getD (maxAsgRank asg + 1) })
      (fun m => rfl) _ _] at hn
    unfold assignLanes at hn
    rw [find?_map_id (fun x =>
      { x with lane_index := (actorToLane doc.actors x.actor_id).getD 0 })
      (fun m => rfl) _ _] at hn
    obtain ⟨g', hg', hgid, hfind⟩ := buildNodes_gateway_find doc g hg
    rw [hfind] at hn
    simp only [Option.map_some'] at hn
    have hne := (Option.some.inj hn).symm
    have hactor : n.actor_id = inferGatewayActor doc g'.id := by
      rw [hne]
      rw [(placeNode_preserves _ _ _ _).2.2.1]
      rw [(sizeNode_preserves _).2.2.1]
      rfl
    have hlane : n.lane_index =
        (actorToLane doc.actors (inferGatewayActor doc g'.id)).getD 0 := by
      rw [hne]
      rw [(placeNode_preserves _ _ _ _).2.2.2.1]
      rw [(sizeNode_preserves _).2.2.2.1]
      rfl
    have hmain : n.actor_id = inferGatewayActor doc g.id := by rw [hactor, hgid]
    refine ⟨hmain, ?_, ?_, ?_, ?_⟩
    · rw [hlane, hmain, hgid]
    · intro a ha2
      rw [hmain]
      unfold inferGatewayActor
      rw [ha2]
    · intro h0 a ha2
      rw [hmain]
      unfold inferGatewayActor
      rw [h0, ha2]
    · intro h0 h1
      rw [hmain]
      unfold inferGatewayActor
      rw [h0, h1]
      cases hacts : doc.actors <;> simp [hacts]

/-- Layout result of c3doc. -/
def c3res : LayoutResult := (runLayout c3doc).getD emptyRes

/-- The gateway record of c3doc. -/
def c3gw : Gateway := { id := "G", name := none }

/-- The placed node of gateway G in c3doc's layout. -/
def c3gNode : LayoutNode :=
  (c3res.nodes.find? (fun m => m.node_id == c3gw.id)).getD (taskNode (mkTask "G" ""))

theorem c3_gateway_lane_witness :
    runLayout c3doc = some c3res ∧ c3gw ∈ c3doc.gateways ∧
    c3res.nodes.find? (fun m => m.node_id == c3gw.id) = some c3gNode ∧
    (c3gNode.actor_id = inferGatewayActor c3doc c3gw.id ∧
     c3gNode.lane_index = (actorToLane c3doc.actors c3gNode.actor_id).getD 0 ∧
     (∀ a, firstTaskActorAmong c3doc (reverseAdj c3doc c3gw.id) = some a →
        c3gNode.actor_id = a) ∧
     (firstTaskActorAmong c3doc (reverseAdj c3doc c3gw.id) = none →
       ∀ a, firstTaskActorAmong c3doc (forwardAdj c3doc c3gw.id) = some a →
         c3gNode.actor_id = a) ∧
     (firstTaskActorAmong c3doc (reverseAdj c3doc c3gw.id) = none →
       firstTaskActorAmong c3doc (forwardAdj c3doc c3gw.id) = none →
       c3gNode.actor_id = ((c3doc.actors.head?).map (fun a => a.id)).getD "")) :=
  ⟨rfl, by decide, rfl,
    c3_gateway_lane c3doc c3res c3gw rfl (by decide) c3gNode rfl⟩

theorem insertLe_perm {α : Type} (le : α → α → Bool) (a : α) :
    ∀ l : List α, (insertLe le a l).Perm (a :: l) := by
  intro l
  induction l with
  | nil => simp [insertLe]
  | cons b bs ih =>
    by_cases h : le a b = true
    · simp [insertLe, h]
    · simp only [insertLe, if_neg h]
      exact (ih.cons b).trans (List.Perm.swap a b bs)

theorem sortLe_perm {α : Type} (le : α → α → Bool) :
    ∀ l : List α, (sortLe le l).Perm l := by
  intro l
  induction l with
  | nil => simp [sortLe]
  | cons a as ih =>
    simp only [sortLe]
    exact (insertLe_perm le a (sortLe le as)).trans (ih.cons a)

theorem foldl_max_init (init : ℚ) : ∀ l : List ℚ, init ≤ l.foldl max init := by
  intro l
  induction l generalizing init with
  | nil => exact le_refl _
  | cons b bs ih => exact le_trans (le_max_left _ _) (ih (max init b))

theorem mem_le_foldl_max (init : ℚ) : ∀ (l : List ℚ) (a : ℚ), a ∈ l → a ≤ l.foldl max init := by
  intro l
  induction l generalizing init with
  | nil => intro a ha; simp at ha
  | cons b bs ih =>
    intro a ha
    rcases List.mem_cons.mp ha with rfl | hmem
    · exact le_trans (le_max_right init a) (foldl_max_init _ bs)
    · exact ih (max init b) a hmem

theorem foldl_max_nonneg (l : List ℚ) : 0 ≤ l.foldl max 0 := foldl_max_init 0 l

/-- A rank's width is never negative. -/
theorem rankWidth_nonneg (ns : List LayoutNode) (r : Nat) : 0 ≤ rankWidth ns r := by
  unfold rankWidth
  by_cases h : ((ns.filter (fun n => n.rank_index == r)).map (fun n => n.width)).isEmpty = true
  · simp [h]
  · simp [h, foldl_max_nonneg]

/-- Total stack offset over the whole cell. -/
theorem stackOffset_full (cell : List LayoutNode) :
    stackOffset cell cell.length =
      (cell.map (fun m => m.height)).sum + 20 * cell.length := by
  unfold stackOffset
  rw [List.take_length]
  induction cell with
  | nil => simp
  | cons m rest ih =>
    simp only [List.map_cons, List.sum_cons, List.length_cons, ih]
    push_cast
    ring

theorem stackOffset_succ (cell : List LayoutNode) (k : Nat) (hk : k < cell.length) :
    stackOffset cell (k + 1) = stackOffset cell k + (cell.get ⟨k, hk⟩).height + 20 := by
  unfold stackOffset
  rw [List.take_succ]
  have hcell : cell[k]? = some (cell.get ⟨k, hk⟩) := by
    rw [List.getElem?_eq_getElem hk]
    rfl
  rw [hcell]
  simp only [Option.toList_some, List.map_append, List.sum_append, List.map_cons,
    List.map_nil, List.sum_cons, List.sum_nil]
  ring

theorem stackOffset_mono (cell : List LayoutNode)
    (hpos : ∀ m ∈ cell, 0 ≤ m.height) :
    ∀ k1 k2, k1 ≤ k2 → k2 ≤ cell.length → stackOffset cell k1 ≤ stackOffset cell k2 := by
  intro k1 k2 h12 h2
  induction k2 with
  | zero => simp at h12; rw [h12]
  | succ k ih =>
    rcases Nat.lt_or_ge k1 (k + 1) with hlt | hge
    · have hk : k < cell.length := Nat.lt_of_succ_le h2
      have h1k : k1 ≤ k := Nat.lt_succ_iff.mp hlt
      have := ih h1k (Nat.le_of_succ_le h2)
      rw [stackOffset_succ cell k hk]
      have hm : 0 ≤ (cell.get ⟨k, hk⟩).height := hpos _ (cell.get_mem _ _)
      linarith
    · have : k1 = k + 1 := Nat.le_antisymm h12 hge
      rw [this]

/-- The stack gap between two positions of the cell. -/
theorem stackOffset_gap (cell : List LayoutNode)
    (hpos : ∀ m ∈ cell, 0 ≤ m.height) (k1 k2 : Nat) (h12 : k1 < k2)
    (h2 : k2 ≤ cell.length) (hk1 : k1 < cell.length) :
    stackOffset cell k1 + (cell.get ⟨k1, hk1⟩).height + 20 ≤ stackOffset cell k2 := by
  have hstep := stackOffset_succ cell k1 hk1
  have hmono := stackOffset_mono cell hpos (k1 + 1) k2 h12 h2
  linarith

/-- The slab of one node stays within the total cell height. -/
theorem stackOffset_le_total (cell : List LayoutNode)
    (hpos : ∀ m ∈ cell, 0 ≤ m.height) (k : Nat) (hk : k < cell.length) :
    stackOffset cell k + (cell.get ⟨k, hk⟩).height ≤ cellTotal cell := by
  have hstep := stackOffset_succ cell k hk
  have hmono := stackOffset_mono cell hpos (k + 1) cell.length hk cell.length.le_refl
  have hfull := stackOffset_full cell
  have hlen : 1 ≤ cell.length := Nat.one_le_iff_ne_zero.mpr (by
    intro hc
    rw [hc] at hk
    exact Nat.not_lt_zero _ hk)
  unfold cellTotal
  have hcast : ((cell.length - 1 : Nat) : ℚ) = (cell.length : ℚ) - 1 := by
    push_cast [hlen]
    ring
  rw [hcast]
  linarith

/-- placeRanks only rewrites the x fields. -/
theorem placeRanks_map_proj {β : Type} (f : LayoutRank → β)
    (hf : ∀ r x, f { r with x := x } = f r) :
    ∀ (rs : List LayoutRank) (x0 : ℚ), (placeRanks rs x0).map f = rs.map f := by
  intro rs
  induction rs with
  | nil => intro _; rfl
  | cons r rest ih =>
    intro x0
    simp only [placeRanks, List.map_cons]
    rw [hf, ih]

theorem placeRanks_lb : ∀ (rs : List LayoutRank) (x0 : ℚ),
    (∀ q ∈ rs, 0 ≤ q.width) → ∀ r ∈ placeRanks rs x0, x0 ≤ r.x := by
  intro rs
  induction rs with
  | nil => intro x0 _ r hr; simp [placeRanks] at hr
  | cons q rest ih =>
    intro x0 hw r hr
    simp only [placeRanks] at hr
    rcases List.mem_cons.mp hr with rfl | hmem
    · simp
    · have h0 : 0 ≤ q.width := hw q (List.mem_cons_self _ _)
      have := ih (x0 + q.width + 100) (fun p hp => hw p (List.mem_cons_of_mem _ hp)) r hmem
      linarith

/-- Placed rank bands are separated by the 100 unit rank spacing. -/
theorem placeRanks_pairwise : ∀ (rs : List LayoutRank) (x0 : ℚ),
    (∀ q ∈ rs, 0 ≤ q.width) →
    (placeRanks rs x0).Pairwise (fun a b => a.x + a.width + 100 ≤ b.x) := by
  intro rs
  induction rs with
  | nil => intro _ _; simp [placeRanks]
  | cons q rest ih =>
    intro x0 hw
    simp only [placeRanks]
    rw [List.pairwise_cons]
    constructor
    · intro b hb
      have hlb := placeRanks_lb rest (x0 + q.width + 100)
        (fun p hp => hw p (List.mem_cons_of_mem _ hp)) b hb
      show x0 + q.width + 100 ≤ b.x
      linarith
    · exact ih _ (fun p hp => hw p (List.mem_cons_of_mem _ hp))

theorem placeLanes_lb : ∀ (ls : List LayoutLane) (y0 : ℚ),
    (∀ q ∈ ls, 0 ≤ q.height) → ∀ l ∈ placeLanes ls y0, y0 ≤ l.y := by
  intro ls
  induction ls with
  | nil => intro y0 _ l hl; simp [placeLanes] at hl
  | cons q rest ih =>
    intro y0 hh l hl
    simp only [placeLanes] at hl
    rcases List.mem_cons.mp hl with rfl | hmem
    · simp
    · have h0 : 0 ≤ q.height := hh q (List.mem_cons_self _ _)
      have := ih (y0 + q.height) (fun p hp => hh p (List.mem_cons_of_mem _ hp)) l hmem
      linarith

/-- Placed lane bands never overlap. -/
theorem placeLanes_pairwise : ∀ (ls : List LayoutLane) (y0 : ℚ),
    (∀ q ∈ ls, 0 ≤ q.height) →
    (placeLanes ls y0).Pairwise (fun a b => a.y + a.height ≤ b.y) := by
  intro ls
  induction ls with
  | nil => intro _ _; simp [placeLanes]
  | cons q rest ih =>
    intro y0 hh
    simp only [placeLanes]
    rw [List.pairwise_cons]
    constructor
    · intro b hb
      have hlb := placeLanes_lb rest (y0 + q.height)
        (fun p hp => hh p (List.mem_cons_of_mem _ hp)) b hb
      show y0 + q.height ≤ b.y
      linarith
    · exact ih _ (fun p hp => hh p (List.mem_cons_of_mem _ hp))

/-- A rank list whose rank indices are 0, 1, 2, ... is pairwise ordered for
the coordinate pass comparator. -/
theorem ranks_pairwise_of_idx (rs : List LayoutRank)
    (h : rs.map (fun r => r.rank_index) = List.range rs.length) :
    rs.Pairwise (fun a b => rankIdxLe a b = true) := by
  have hr : (rs.map (fun r => r.rank_index)).Pairwise (· < ·) := by
    rw [h]; exact List.pairwise_lt_range _
  rw [List.pairwise_map] at hr
  exact hr.imp (fun hlt => by simp [rankIdxLe]; omega)

/-- Rank indices of the created rank list are 0, 1, 2, ... . -/
theorem mkRankList_idx (ns' : List LayoutNode) :
    (mkRankList ns').map (fun r => r.rank_index) =
      List.range ((ns'.map (fun n => n.rank_index)).foldl max 0 + 1) := by
  unfold mkRankList
  rw [List.map_map]
  have : ((fun r => LayoutRank.rank_index r) ∘ (fun i =>
      ({ rank_index := i, phase_id := none, label := some ("列" ++ toString (i + 1)),
         x := 0, width := 0 } : LayoutRank))) = fun i => i := rfl
  rw [this]
  exact List.map_id _

/-- find? by a projected index succeeds when some element carries it. -/
theorem find?_by_idx {α : Type} (idx : α → Nat) (l : List α) (k : Nat)
    (h : ∃ r ∈ l, idx r = k) :
    ∃ r, l.find? (fun r => idx r == k) = some r ∧ idx r = k ∧ r ∈ l := by
  have hsome : (l.find? (fun r => idx r == k)).isSome := by
    rw [List.find?_isSome]
    obtain ⟨r, hr, hk⟩ := h
    exact ⟨r, hr, by simp [hk]⟩
  cases hf : l.find? (fun r => idx r == k) with
  | none => rw [hf] at hsome; simp at hsome
  | some r =>
    refine ⟨r, rfl, ?_, List.mem_of_find?_eq_some hf⟩
    have := List.find?_some hf
    simpa using this

/-- x coordinate of a placed node when its rank is found. -/
theorem placeNode_x (ranks : List LayoutRank) (lanes : List LayoutLane)
    (ns : List LayoutNode) (n : LayoutNode) (r : LayoutRank)
    (h : ranks.find? (fun r => r.rank_index == n.rank_index) = some r) :
    (placeNode ranks lanes ns n).x = r.x + (r.width - n.width) / 2 := by
  unfold placeNode
  rw [h]
  cases h2 : lanes.find? (fun l => l.lane_index == n.lane_index) <;> simp

/-- y coordinate of a placed node when its lane is found. -/
theorem placeNode_y (ranks : List LayoutRank) (lanes : List LayoutLane)
    (ns : List LayoutNode) (n : LayoutNode) (l : LayoutLane)
    (h : lanes.find? (fun l => l.lane_index == n.lane_index) = some l) :
    (placeNode ranks lanes ns n).y =
      l.y + (l.height - cellTotal (sortLe orderLe (ns.filter (fun m =>
        m.rank_index == n.rank_index && m.lane_index == n.lane_index)))) / 2 +
      stackOffset (sortLe orderLe (ns.filter (fun m =>
        m.rank_index == n.rank_index && m.lane_index == n.lane_index)))
        ((sortLe orderLe (ns.filter (fun m =>
          m.rank_index == n.rank_index && m.lane_index == n.lane_index))).findIdx
          (fun m => m.node_id == n.node_id)) := by
  unfold placeNode
  rw [h]

theorem upsert_ids_mem (ns : List LayoutNode) (n : LayoutNode) (k : String) :
    k ∈ (upsertNode ns n).map (fun m => m.node_id) ↔
      k ∈ ns.map (fun m => m.node_id) ∨ k = n.node_id := by
  induction ns with
  | nil => simp [upsertNode]
  | cons m rest ih =>
    by_cases h : m.node_id = n.node_id
    · simp only [upsertNode, if_pos h, List.map_cons, List.mem_cons]
      rw [h]
      tauto
    · simp only [upsertNode, if_neg h, List.map_cons, List.mem_cons, ih]
      tauto

theorem upsert_ids_nodup (ns : List LayoutNode) (n : LayoutNode)
    (h : (ns.map (fun m => m.node_id)).Nodup) :
    ((upsertNode ns n).map (fun m => m.node_id)).Nodup := by
  induction ns with
  | nil => simp [upsertNode]
  | cons m rest ih =>
    rw [List.map_cons, List.nodup_cons] at h
    by_cases hm : m.node_id = n.node_id
    · simp only [upsertNode, if_pos hm, List.map_cons, List.nodup_cons]
      exact ⟨by rw [← hm]; exact h.1, h.2⟩
    · simp only [upsertNode, if_neg hm, List.map_cons, List.nodup_cons]
      refine ⟨?_, ih h.2⟩
      rw [upsert_ids_mem]
      rintro (hk | hk)
      · exact h.1 hk
      · exact hm hk

theorem foldl_upsert_nodup {β : Type} (f : β → LayoutNode) :
    ∀ (l : List β) (init : List LayoutNode),
      (init.map (fun m => m.node_id)).Nodup →
      ((l.foldl (fun ns b => upsertNode ns (f b)) init).map (fun m => m.node_id)).Nodup := by
  intro l
  induction l with
  | nil => intro init h; exact h
  | cons b rest ih =>
    intro init h
    exact ih _ (upsert_ids_nodup _ _ h)

/-- Node ids in the built dict are distinct. -/
theorem buildNodes_ids_nodup (doc : FlowDoc) :
    ((buildNodes doc).map (fun m => m.node_id)).Nodup := by
  unfold buildNodes
  apply foldl_upsert_nodup
  apply foldl_upsert_nodup
  simp

/-- Mapping an id-preserving transformation keeps the id projection. -/
theorem map_ids (f : LayoutNode → LayoutNode) (hid : ∀ m, (f m).node_id = m.node_id)
    (ns : List LayoutNode) :
    (ns.map f).map (fun m => m.node_id) = ns.map (fun m => m.node_id) := by
  rw [List.map_map]
  exact List.map_congr_left (fun a _ => hid a)

theorem sizeNode_height (n : LayoutNode) :
    (sizeNode n).height = 60 ∨ (sizeNode n).height = 80 := by
  unfold sizeNode
  split <;> simp

theorem sizeNode_width_pos (n : LayoutNode) : 0 < (sizeNode n).width := by
  unfold sizeNode
  split
  · norm_num
  · exact lt_of_lt_of_le (show (0 : ℚ) < 180 by norm_num) (le_max_left 180 _)

/-- With at least one node in the lane, the lane height dominates the
content height plus the two paddings. -/
theorem laneHeight_ge (ns : List LayoutNode) (li : Nat)
    (hne : ¬ (ns.filter (fun n => n.lane_index == li)).isEmpty = true) :
    ((ns.filter (fun n => n.lane_index == li)).map (fun n => n.height)).foldl max 0 *
        (ns.filter (fun n => n.lane_index == li)).length +
      20 * (((ns.filter (fun n => n.lane_index == li)).length - 1 : Nat) : ℚ) + 60 ≤
      laneHeight ns li := by
  simp only [laneHeight, hne, Bool.false_eq_true, if_false]
  have h60 : (30 : ℚ) * 2 = 60 := by norm_num
  rw [h60]
  exact le_max_right _ _

/-- Generic projection preservation through a node map. -/
theorem map_projL {β : Type} (g : LayoutNode → β) (f : LayoutNode → LayoutNode)
    (hpres : ∀ m, g (f m) = g m) (ns : List LayoutNode) :
    (ns.map f).map g = ns.map g := by
  rw [List.map_map]
  exact List.map_congr_left (fun a _ => hpres a)

theorem foldl_maxN_init (init : Nat) : ∀ l : List Nat, init ≤ l.foldl max init := by
  intro l
  induction l generalizing init with
  | nil => exact le_refl _
  | cons b bs ih => exact le_trans (le_max_left _ _) (ih (max init b))

theorem mem_le_foldl_maxN (init : Nat) :
    ∀ (l : List Nat) (a : Nat), a ∈ l → a ≤ l.foldl max init := by
  intro l
  induction l generalizing init with
  | nil => intro a ha; simp at ha
  | cons b bs ih =>
    intro a ha
    rcases List.mem_cons.mp ha with rfl | hmem
    · exact le_trans (le_max_right init a) (foldl_maxN_init _ bs)
    · exact ih (max init b) a hmem

theorem lookupA_mem {α : Type} :
    ∀ (l : List (String × α)) (k : String) (v : α), lookupA l k = some v → (k, v) ∈ l := by
  intro l
  induction l with
  | nil => intro k v h; simp [lookupA] at h
  | cons p rest ih =>
    intro k v h
    simp only [lookupA] at h
    by_cases hk : p.1 = k
    · rw [if_pos hk] at h
      have hv := Option.some.inj h
      have hkv : (k, v) = p := by rw [← hk, ← hv]
      rw [hkv]
      exact List.mem_cons_self _ _
    · rw [if_neg hk] at h
      exact List.mem_cons_of_mem _ (ih k v h)

theorem mem_enumFrom_lt {α : Type} :
    ∀ (l : List α) (k : Nat) (p : Nat × α), p ∈ l.enumFrom k → p.1 < k + l.length := by
  intro l
  induction l with
  | nil => intro k p hp; simp at hp
  | cons a as ih =>
    intro k p hp
    rcases List.mem_cons.mp hp with rfl | hmem
    · simp
    · have := ih (k + 1) p hmem
      simp only [List.length_cons]
      omega

/-- A resolved actor lane index is within the lane list. -/
theorem actorToLane_lt (actors : List Actor) (aid : String) (i : Nat)
    (h : actorToLane actors aid = some i) : i < actors.length := by
  unfold actorToLane at h
  have hmem := lookupA_mem _ _ _ h
  rw [List.mem_reverse] at hmem
  obtain ⟨p, hp, hpe⟩ := List.mem_map.mp hmem
  have hi : p.1 = i := congrArg Prod.snd hpe
  have hlt := mem_enumFrom_lt actors 0 p hp
  omega

/-- Default lane index of any actor id is within a nonempty lane list. -/
theorem actorToLane_getD_lt (actors : List Actor) (aid : String) (hA : actors ≠ []) :
    (actorToLane actors aid).getD 0 < actors.length := by
  cases h : actorToLane actors aid with
  | none =>
    simp only [Option.getD_none]
    exact List.length_pos.mpr hA
  | some i =>
    simp only [Option.getD_some]
    exact actorToLane_lt actors aid i h

theorem length_filter_implies {α : Type} {p q : α → Bool}
    (himp : ∀ a, p a = true → q a = true) :
    ∀ l : List α, (l.filter p).length ≤ (l.filter q).length := by
  intro l
  induction l with
  | nil => simp
  | cons a as ih =>
    by_cases hp : p a = true
    · rw [List.filter_cons_of_pos hp, List.filter_cons_of_pos (himp a hp)]
      simpa using ih
    · rw [List.filter_cons_of_neg (by simpa using hp)]
      by_cases hq : q a = true
      · rw [List.filter_cons_of_pos hq]
        exact le_trans ih (by simp)
      · rw [List.filter_cons_of_neg (by simpa using hq)]
        exact ih

/-- A node of a cell list with distinct ids sits at its findIdx position. -/
theorem findIdx_self_of_nodup (cell : List LayoutNode)
    (hnd : (cell.map (fun m => m.node_id)).Nodup) (m : LayoutNode) (hm : m ∈ cell) :
    ∃ hk : cell.findIdx (fun x => x.node_id == m.node_id) < cell.length,
      cell.get ⟨cell.findIdx (fun x => x.node_id == m.node_id), hk⟩ = m := by
  have hex : ∃ x ∈ cell, ((fun x => x.node_id == m.node_id) x) = true := ⟨m, hm, by simp⟩
  have hk := List.findIdx_lt_length_of_exists hex
  refine ⟨hk, ?_⟩
  have hp : ((cell.get ⟨cell.findIdx (fun x => x.node_id == m.node_id), hk⟩).node_id ==
      m.node_id) = true := List.findIdx_get (w := hk)
  have hpe : (cell.get ⟨cell.findIdx (fun x => x.node_id == m.node_id), hk⟩).node_id =
      m.node_id := by simpa using hp
  exact List.inj_on_of_nodup_map hnd (cell.get_mem _ _) hm hpe

/-- Ids of a sorted filtered cell stay distinct. -/
theorem cell_ids_nodup (ns : List LayoutNode)
    (hnd : (ns.map (fun m => m.node_id)).Nodup) (p : LayoutNode → Bool) :
    ((sortLe orderLe (ns.filter p)).map (fun m => m.node_id)).Nodup := by
  have hsub : (ns.filter p).Sublist ns := List.filter_sublist _
  have h1 : ((ns.filter p).map (fun m => m.node_id)).Nodup :=
    (hsub.map (fun m => m.node_id)).nodup hnd
  exact ((sortLe_perm orderLe (ns.filter p)).map (fun m => m.node_id)).nodup_iff.mpr h1

/-- A node satisfying the cell predicate is in the sorted cell. -/
theorem cell_mem (ns : List LayoutNode) (p : LayoutNode → Bool) (m : LayoutNode)
    (hm : m ∈ ns) (hp : p m = true) : m ∈ sortLe orderLe (ns.filter p) :=
  (sortLe_perm orderLe (ns.filter p)).mem_iff.mpr (List.mem_filter.mpr ⟨hm, hp⟩)

/-- Every member of the sorted cell is a member of the base list. -/
theorem cell_subset (ns : List LayoutNode) (p : LayoutNode → Bool) (x : LayoutNode)
    (hx : x ∈ sortLe orderLe (ns.filter p)) : x ∈ ns :=
  (List.mem_filter.mp ((sortLe_perm orderLe (ns.filter p)).mem_iff.mp hx)).1

/-- The cell stack of any occupied (rank, lane) cell, plus the two 30 unit
paddings, fits in the computed lane height. -/
theorem cellTotal_le_lane (ns : List LayoutNode) (R L : Nat)
    (hpos : ∀ x ∈ ns, 0 ≤ x.height) (m : LayoutNode) (hm : m ∈ ns)
    (hmr : m.rank_index = R) (hml : m.lane_index = L) :
    cellTotal (sortLe orderLe (ns.filter (fun x =>
      x.rank_index == R && x.lane_index == L))) + 60 ≤ laneHeight ns L := by
  have hperm := sortLe_perm orderLe (ns.filter (fun x =>
    x.rank_index == R && x.lane_index == L))
  have hmf : m ∈ ns.filter (fun x => x.rank_index == R && x.lane_index == L) :=
    List.mem_filter.mpr ⟨hm, by simp [hmr, hml]⟩
  have hml2 : m ∈ ns.filter (fun x => x.lane_index == L) :=
    List.mem_filter.mpr ⟨hm, by simp [hml]⟩
  have hlanene : ¬ (ns.filter (fun n => n.lane_index == L)).isEmpty = true := by
    intro hc
    rw [List.isEmpty_iff] at hc
    rw [hc] at hml2
    simp at hml2
  have hc1 : 1 ≤ (sortLe orderLe (ns.filter (fun x =>
      x.rank_index == R && x.lane_index == L))).length := by
    rw [hperm.length_eq]
    exact List.length_pos.mpr (by intro hc; rw [hc] at hmf; simp at hmf)
  have hcC : (sortLe orderLe (ns.filter (fun x =>
      x.rank_index == R && x.lane_index == L))).length ≤
      (ns.filter (fun n => n.lane_index == L)).length := by
    rw [hperm.length_eq]
    apply length_filter_implies
    intro a ha
    simp at ha ⊢
    exact ha.2
  have hC1 : 1 ≤ (ns.filter (fun n => n.lane_index == L)).length := le_trans hc1 hcC
  have hmaxH0 : 0 ≤ ((ns.filter (fun n => n.lane_index == L)).map
      (fun n => n.height)).foldl max 0 := foldl_max_nonneg _
  have hsum : ((sortLe orderLe (ns.filter (fun x =>
      x.rank_index == R && x.lane_index == L))).map (fun x => x.height)).sum ≤
      ((ns.filter (fun n => n.lane_index == L)).map (fun n => n.height)).foldl max 0 *
        (sortLe orderLe (ns.filter (fun x =>
          x.rank_index == R && x.lane_index == L))).length := by
    have hb : ∀ h ∈ (sortLe orderLe (ns.filter (fun x =>
        x.rank_index == R && x.lane_index == L))).map (fun x => x.height),
        h ≤ ((ns.filter (fun n => n.lane_index == L)).map (fun n => n.height)).foldl max 0 := by
      intro h hh
      obtain ⟨x, hx, rfl⟩ := List.mem_map.mp hh
      have hxf := hperm.mem_iff.mp hx
      have hxl : x ∈ ns.filter (fun n => n.lane_index == L) := by
        have hxx := List.mem_filter.mp hxf
        refine List.mem_filter.mpr ⟨hxx.1, ?_⟩
        have h2 := hxx.2
        simp at h2 ⊢
        exact h2.2
      exact mem_le_foldl_max 0 _ _ (List.mem_map_of_mem _ hxl)
    calc ((sortLe orderLe (ns.filter (fun x =>
          x.rank_index == R && x.lane_index == L))).map (fun x => x.height)).sum
        ≤ ((sortLe orderLe (ns.filter (fun x =>
            x.rank_index == R && x.lane_index == L))).map (fun x => x.height)).length •
          (((ns.filter (fun n => n.lane_index == L)).map (fun n => n.height)).foldl max 0) :=
          List.sum_le_card_nsmul _ _ hb
      _ = _ := by
          rw [List.length_map, nsmul_eq_mul]
          ring
  have hlg := laneHeight_ge ns L hlanene
  unfold cellTotal
  have hcast1 : (((sortLe orderLe (ns.filter (fun x =>
      x.rank_index == R && x.lane_index == L))).length - 1 : Nat) : ℚ) =
      ((sortLe orderLe (ns.filter (fun x =>
        x.rank_index == R && x.lane_index == L))).length : ℚ) - 1 := by
    push_cast [hc1]
    ring
  have hcast2 : (((ns.filter (fun n => n.lane_index == L)).length - 1 : Nat) : ℚ) =
      ((ns.filter (fun n => n.lane_index == L)).length : ℚ) - 1 := by
    push_cast [hC1]
    ring
  rw [hcast1]
  rw [hcast2] at hlg
  have hcCq : ((sortLe orderLe (ns.filter (fun x =>
      x.rank_index == R && x.lane_index == L))).length : ℚ) ≤
      ((ns.filter (fun n => n.lane_index == L)).length : ℚ) := by exact_mod_cast hcC
  nlinarith [hmaxH0, hsum, hlg, hcCq]

/-- A node's width never exceeds the width of its rank. -/
theorem width_le_rankWidth (ns4 : List LayoutNode) (m : LayoutNode) (hm : m ∈ ns4) :
    m.width ≤ rankWidth ns4 m.rank_index := by
  have hmem : m.width ∈ (ns4.filter (fun n => n.rank_index == m.rank_index)).map
      (fun n => n.width) :=
    List.mem_map_of_mem _ (List.mem_filter.mpr ⟨hm, by simp⟩)
  have hne : ¬ ((ns4.filter (fun n => n.rank_index == m.rank_index)).map
      (fun n => n.width)).isEmpty = true := by
    intro hc
    rw [List.isEmpty_iff] at hc
    rw [hc] at hmem
    simp at hmem
  unfold rankWidth
  simp only [hne, Bool.false_eq_true, if_false]
  exact mem_le_foldl_max 0 _ _ hmem

/-- Horizontal extent of a placed node stays inside its rank band. -/
theorem node_x_band (ranks2 : List LayoutRank) (lanes2 : List LayoutLane)
    (ns4 : List LayoutNode) (m : LayoutNode) (r : LayoutRank)
    (hfind : ranks2.find? (fun x => x.rank_index == m.rank_index) = some r)
    (hwidth : r.width = rankWidth ns4 m.rank_index) (hm : m ∈ ns4) :
    r.x ≤ (placeNode ranks2 lanes2 ns4 m).x ∧
    (placeNode ranks2 lanes2 ns4 m).x + (placeNode ranks2 lanes2 ns4 m).width ≤
      r.x + r.width := by
  have hx := placeNode_x ranks2 lanes2 ns4 m r hfind
  have hw : (placeNode ranks2 lanes2 ns4 m).width = m.width :=
    (placeNode_preserves _ _ _ _).2.2.2.2.2.2.1
  have hmw : m.width ≤ r.width := by
    rw [hwidth]
    exact width_le_rankWidth ns4 m hm
  constructor
  · rw [hx]
    linarith
  · rw [hx, hw]
    linarith

/-- Stack offset at position 0 is zero. -/
theorem stackOffset_zero (cell : List LayoutNode) : stackOffset cell 0 = 0 := rfl

/-- Vertical extent of a placed node stays strictly inside its lane band,
with at least the 30 unit padding on each side. -/
theorem node_y_band (ranks2 : List LayoutRank) (lanes2 : List LayoutLane)
    (ns4 : List LayoutNode) (m : LayoutNode) (l : LayoutLane)
    (hfind : lanes2.find? (fun x => x.lane_index == m.lane_index) = some l)
    (hheight : l.height = laneHeight ns4 m.lane_index)
    (hnd : (ns4.map (fun x => x.node_id)).Nodup)
    (hpos : ∀ x ∈ ns4, 0 ≤ x.height) (hm : m ∈ ns4) :
    l.y + 30 ≤ (placeNode ranks2 lanes2 ns4 m).y ∧
    (placeNode ranks2 lanes2 ns4 m).y + (placeNode ranks2 lanes2 ns4 m).height ≤
      l.y + l.height - 30 := by
  have hy := placeNode_y ranks2 lanes2 ns4 m l hfind
  have hh : (placeNode ranks2 lanes2 ns4 m).height = m.height :=
    (placeNode_preserves _ _ _ _).2.2.2.2.2.2.2
  have hmc : m ∈ sortLe orderLe (ns4.filter (fun x =>
      x.rank_index == m.rank_index && x.lane_index == m.lane_index)) :=
    cell_mem ns4 _ m hm (by simp)
  have hcnd := cell_ids_nodup ns4 hnd (fun x =>
    x.rank_index == m.rank_index && x.lane_index == m.lane_index)
  obtain ⟨hk, hget⟩ := findIdx_self_of_nodup _ hcnd m hmc
  have hcellpos : ∀ x ∈ sortLe orderLe (ns4.filter (fun x =>
      x.rank_index == m.rank_index && x.lane_index == m.lane_index)), 0 ≤ x.height :=
    fun x hx => hpos x (cell_subset ns4 _ x hx)
  have hoff0 : 0 ≤ stackOffset (sortLe orderLe (ns4.filter (fun x =>
      x.rank_index == m.rank_index && x.lane_index == m.lane_index)))
      ((sortLe orderLe (ns4.filter (fun x =>
        x.rank_index == m.rank_index && x.lane_index == m.lane_index))).findIdx
        (fun x => x.node_id == m.node_id)) := by
    have := stackOffset_mono _ hcellpos 0 _ (Nat.zero_le _) (le_of_lt hk)
    rw [stackOffset_zero] at this
    exact this
  have hofftot := stackOffset_le_total _ hcellpos _ hk
  rw [hget] at hofftot
  have htot := cellTotal_le_lane ns4 m.rank_index m.lane_index hpos m hm rfl rfl
  rw [← hheight] at htot
  have hmh : 0 ≤ m.height := hpos m hm
  constructor
  · rw [hy]
    linarith
  · rw [hy, hh]
    linarith

/-- Two distinct nodes of one (rank, lane) cell are stacked with a gap of
at least the 20 unit node spacing. -/
theorem node_same_cell (ranks2 : List LayoutRank) (lanes2 : List LayoutLane)
    (ns4 : List LayoutNode) (m1 m2 : LayoutNode)
    (hnd : (ns4.map (fun x => x.node_id)).Nodup)
    (hpos : ∀ x ∈ ns4, 0 ≤ x.height)
    (hm1 : m1 ∈ ns4) (hm2 : m2 ∈ ns4)
    (hid : m1.node_id ≠ m2.node_id)
    (hr : m1.rank_index = m2.rank_index) (hl : m1.lane_index = m2.lane_index)
    (l : LayoutLane)
    (hfind : lanes2.find? (fun x => x.lane_index == m1.lane_index) = some l) :
    (placeNode ranks2 lanes2 ns4 m1).y + (placeNode ranks2 lanes2 ns4 m1).height + 20 ≤
        (placeNode ranks2 lanes2 ns4 m2).y ∨
      (placeNode ranks2 lanes2 ns4 m2).y + (placeNode ranks2 lanes2 ns4 m2).height + 20 ≤
        (placeNode ranks2 lanes2 ns4 m1).y := by
  have hy1 := placeNode_y ranks2 lanes2 ns4 m1 l hfind
  have hfind2 : lanes2.find? (fun x => x.lane_index == m2.lane_index) = some l := by
    rw [← hl]
    exact hfind
  have hy2 := placeNode_y ranks2 lanes2 ns4 m2 l hfind2
  rw [← hr, ← hl] at hy2
  have hh1 : (placeNode ranks2 lanes2 ns4 m1).height = m1.height :=
    (placeNode_preserves _ _ _ _).2.2.2.2.2.2.2
  have hh2 : (placeNode ranks2 lanes2 ns4 m2).height = m2.height :=
    (placeNode_preserves _ _ _ _).2.2.2.2.2.2.2
  have hcnd := cell_ids_nodup ns4 hnd (fun x =>
    x.rank_index == m1.rank_index && x.lane_index == m1.lane_index)
  have hcellpos : ∀ x ∈ sortLe orderLe (ns4.filter (fun x =>
      x.rank_index == m1.rank_index && x.lane_index == m1.lane_index)), 0 ≤ x.height :=
    fun x hx => hpos x (cell_subset ns4 _ x hx)
  have hm1c : m1 ∈ sortLe orderLe (ns4.filter (fun x =>
      x.rank_index == m1.rank_index && x.lane_index == m1.lane_index)) :=
    cell_mem ns4 _ m1 hm1 (by simp)
  have hm2c : m2 ∈ sortLe orderLe (ns4.filter (fun x =>
      x.rank_index == m1.rank_index && x.lane_index == m1.lane_index)) :=
    cell_mem ns4 _ m2 hm2 (by simp [hr, hl])
  obtain ⟨hk1, hget1⟩ := findIdx_self_of_nodup _ hcnd m1 hm1c
  obtain ⟨hk2, hget2⟩ := findIdx_self_of_nodup _ hcnd m2 hm2c
  have hkk : (sortLe orderLe (ns4.filter (fun x =>
      x.rank_index == m1.rank_index && x.lane_index == m1.lane_index))).findIdx
        (fun x => x.node_id == m1.node_id) ≠
      (sortLe orderLe (ns4.filter (fun x =>
        x.rank_index == m1.rank_index && x.lane_index == m1.lane_index))).findIdx
        (fun x => x.node_id == m2.node_id) := by
    intro hc
    apply hid
    have : m1 = m2 := by
      rw [← hget1, ← hget2]
      congr 1
      exact Fin.ext hc
    rw [this]
  rcases Nat.lt_or_ge ((sortLe orderLe (ns4.filter (fun x =>
      x.rank_index == m1.rank_index && x.lane_index == m1.lane_index))).findIdx
        (fun x => x.node_id == m1.node_id))
      ((sortLe orderLe (ns4.filter (fun x =>
        x.rank_index == m1.rank_index && x.lane_index == m1.lane_index))).findIdx
        (fun x => x.node_id == m2.node_id)) with h12 | h21
  · left
    have hgap := stackOffset_gap _ hcellpos _ _ h12 (le_of_lt hk2) hk1
    rw [hget1] at hgap
    rw [hy1, hy2, hh1]
    linarith
  · have h21' : (sortLe orderLe (ns4.filter (fun x =>
        x.rank_index == m1.rank_index && x.lane_index == m1.lane_index))).findIdx
          (fun x => x.node_id == m2.node_id) <
        (sortLe orderLe (ns4.filter (fun x =>
          x.rank_index == m1.rank_index && x.lane_index == m1.lane_index))).findIdx
          (fun x => x.node_id == m1.node_id) :=
      Nat.lt_of_le_of_ne h21 (fun hc => hkk hc.symm)
    right
    have hgap := stackOffset_gap _ hcellpos _ _ h21' (le_of_lt hk1) hk2
    rw [hget2] at hgap
    rw [hy1, hy2, hh2]
    linarith

/-- C2 (amended): for every document with at least one actor, after a
successful layout run any two nodes with different ids occupy disjoint
rectangles; in particular nodes sharing a (rank, lane) cell are stacked
vertically with a positive separation of at least the 20 unit node
spacing. -/
theorem c2_no_overlap (doc : FlowDoc) (res : LayoutResult)
    (hA : doc.actors ≠ []) (h : runLayout doc = some res) :
    ∀ n1 ∈ res.nodes, ∀ n2 ∈ res.nodes, n1.node_id ≠ n2.node_id →
      boxesDisjoint n1 n2 ∧
      (n1.rank_index = n2.rank_index → n1.lane_index = n2.lane_index →
        n1.y + n1.height + 20 ≤ n2.y ∨ n2.y + n2.height + 20 ≤ n1.y) := by
  obtain ⟨ns2, ranks0, ha, hres⟩ := runLayout_some h
  unfold assignRanksTopo at ha
  cases hb : bfsAssignment doc
      ((assignLanes doc (buildNodes doc)).map (fun x => x.node_id)) with
  | none => rw [hb] at ha; exact absurd ha (by simp)
  | some asg =>
  rw [hb] at ha
  have hns2 : ns2 = rankedNodes asg (assignLanes doc (buildNodes doc)) :=
    (congrArg Prod.fst (Option.some.inj ha)).symm
  have hranks0 : ranks0 = mkRankList ns2 := by
    have h2 := (congrArg Prod.snd (Option.some.inj ha)).symm
    rw [hns2]
    exact h2
  have hnd2 : (ns2.map (fun x => x.node_id)).Nodup := by
    rw [hns2]
    unfold rankedNodes
    rw [map_projL (fun x => x.node_id) (fun n => { n with rank_index := (lookupA asg n.node_id).getD (maxAsgRank asg + 1) }) (fun m => rfl)]
    unfold assignLanes
    rw [map_projL (fun x => x.node_id) (fun n => { n with lane_index := (actorToLane doc.actors n.actor_id).getD 0 }) (fun m => rfl)]
    exact buildNodes_ids_nodup doc
  have hlane2 : ∀ x ∈ ns2, x.lane_index < doc.actors.length := by
    intro x hx
    rw [hns2] at hx
    unfold rankedNodes at hx
    obtain ⟨y, hy, rfl⟩ := List.mem_map.mp hx
    unfold assignLanes at hy
    obtain ⟨z, hz, rfl⟩ := List.mem_map.mp hy
    exact actorToLane_getD_lt doc.actors z.actor_id hA
  subst hranks0
  intro n1 hn1 n2 hn2 hid
  rw [hres, geomPipeline_nodes] at hn1 hn2
  obtain ⟨m1, hm1, hpn1⟩ := List.mem_map.mp hn1
  obtain ⟨m2, hm2, hpn2⟩ := List.mem_map.mp hn2
  set ns4 := (setOrderInRank ns2).map sizeNode with hns4
  set ranks2 := placeRanks (sortLe rankIdxLe ((mkRankList ns2).map (fun r =>
    { r with width := rankWidth ns4 r.rank_index }))) (50 + 180) with hranks2
  set lanes2 := placeLanes (sortLe laneIdxLe ((mkLanes doc).map (fun l =>
    { l with height := laneHeight ns4 l.lane_index }))) 50 with hlanes2
  -- shared facts about the sized nodes
  have hhgt : ∀ x ∈ ns4, 0 ≤ x.height := by
    intro x hx
    rw [hns4] at hx
    obtain ⟨y, _, rfl⟩ := List.mem_map.mp hx
    rcases sizeNode_height y with h6 | h8
    · rw [h6]; norm_num
    · rw [h8]; norm_num
  have hnd4 : (ns4.map (fun x => x.node_id)).Nodup := by
    rw [hns4]
    rw [map_projL _ sizeNode (fun m => (sizeNode_preserves m).1)]
    unfold setOrderInRank
    rw [map_projL (fun x => x.node_id) (fun n => { n with order_in_rank := (rankPeers ns2 n.rank_index).findIdx (fun m => m.node_id == n.node_id) }) (fun m => rfl)]
    exact hnd2
  have hlane4 : ∀ x ∈ ns4, x.lane_index < doc.actors.length := by
    intro x hx
    rw [hns4] at hx
    obtain ⟨y, hy, rfl⟩ := List.mem_map.mp hx
    rw [(sizeNode_preserves y).2.2.2.1]
    unfold setOrderInRank at hy
    obtain ⟨z, hz, rfl⟩ := List.mem_map.mp hy
    exact hlane2 z hz
  have hrkproj : ns4.map (fun x => x.rank_index) = ns2.map (fun x => x.rank_index) := by
    rw [hns4]
    rw [map_projL _ sizeNode (fun m => (sizeNode_preserves m).2.2.2.2.1)]
    unfold setOrderInRank
    rw [map_projL (fun x => x.rank_index) (fun n => { n with order_in_rank := (rankPeers ns2 n.rank_index).findIdx (fun m => m.node_id == n.node_id) }) (fun m => rfl)]
  -- rank list structure
  have hcomp1 : ((fun r => LayoutRank.rank_index r) ∘ (fun r : LayoutRank =>
      { r with width := rankWidth ns4 r.rank_index })) = fun r => r.rank_index := rfl
  have hr1idxp : ((mkRankList ns2).map (fun r =>
      { r with width := rankWidth ns4 r.rank_index })).map (fun r => r.rank_index) =
      List.range ((ns2.map (fun x => x.rank_index)).foldl max 0 + 1) := by
    rw [List.map_map, hcomp1, mkRankList_idx]
  have hr1len : ((mkRankList ns2).map (fun r =>
      { r with width := rankWidth ns4 r.rank_index })).length =
      (ns2.map (fun x => x.rank_index)).foldl max 0 + 1 := by
    have := congrArg List.length hr1idxp
    simpa using this
  have hpairR : ((mkRankList ns2).map (fun r =>
      { r with width := rankWidth ns4 r.rank_index })).Pairwise
      (fun a b => rankIdxLe a b = true) := by
    apply ranks_pairwise_of_idx
    rw [hr1idxp, hr1len]
  have hsortR : sortLe rankIdxLe ((mkRankList ns2).map (fun r =>
      { r with width := rankWidth ns4 r.rank_index })) =
      (mkRankList ns2).map (fun r => { r with width := rankWidth ns4 r.rank_index }) :=
    sortLe_eq_self _ _ hpairR
  have hridx : ranks2.map (fun r => r.rank_index) =
      List.range ((ns2.map (fun x => x.rank_index)).foldl max 0 + 1) := by
    rw [hranks2, hsortR, placeRanks_map_proj (fun r => r.rank_index) (fun r x => rfl), hr1idxp]
  have hrw : ∀ r ∈ ranks2, r.width = rankWidth ns4 r.rank_index := by
    intro r hr
    have hmem : (r.rank_index, r.width) ∈ ranks2.map (fun q => (q.rank_index, q.width)) :=
      List.mem_map_of_mem _ hr
    rw [hranks2, hsortR, placeRanks_map_proj (fun q => (q.rank_index, q.width)) (fun q x => rfl), List.map_map] at hmem
    obtain ⟨q, _, hq⟩ := List.mem_map.mp hmem
    have h1 : q.rank_index = r.rank_index := congrArg Prod.fst hq
    have h2 : rankWidth ns4 q.rank_index = r.width := congrArg Prod.snd hq
    rw [← h2, h1]
  have hrbands : ranks2.Pairwise (fun a b =>
      a.x + a.width + 100 ≤ b.x ∨ b.x + b.width + 100 ≤ a.x) := by
    have hwnn : ∀ q ∈ sortLe rankIdxLe ((mkRankList ns2).map (fun r =>
        { r with width := rankWidth ns4 r.rank_index })), 0 ≤ q.width := by
      intro q hq
      rw [hsortR] at hq
      obtain ⟨p, _, rfl⟩ := List.mem_map.mp hq
      exact rankWidth_nonneg _ _
    have := placeRanks_pairwise _ (50 + 180) hwnn
    rw [← hranks2] at this
    exact this.imp (fun hx => Or.inl hx)
  have hrfind : ∀ m ∈ ns4, ∃ r, ranks2.find? (fun x => x.rank_index == m.rank_index) = some r ∧
      r.rank_index = m.rank_index ∧ r ∈ ranks2 := by
    intro m hm
    have hmr : m.rank_index ∈ ns2.map (fun x => x.rank_index) := by
      rw [← hrkproj]
      exact List.mem_map_of_mem _ hm
    have hle := mem_le_foldl_maxN 0 _ _ hmr
    have hmem : m.rank_index ∈ ranks2.map (fun r => r.rank_index) := by
      rw [hridx]
      exact List.mem_range.mpr (by omega)
    obtain ⟨r, hr, hre⟩ := List.mem_map.mp hmem
    obtain ⟨r', hf, hi, hm'⟩ := find?_by_idx (fun r => r.rank_index) ranks2 m.rank_index
      ⟨r, hr, hre⟩
    exact ⟨r', hf, hi, hm'⟩
  -- lane list structure
  have hcompL : ((fun l => LayoutLane.lane_index l) ∘ (fun l : LayoutLane =>
      { l with height := laneHeight ns4 l.lane_index })) = fun l => l.lane_index := rfl
  have hl1idxp : ((mkLanes doc).map (fun l =>
      { l with height := laneHeight ns4 l.lane_index })).map (fun l => l.lane_index) =
      List.range doc.actors.length := by
    rw [List.map_map, hcompL, mkLanes_idx]
  have hl1len : ((mkLanes doc).map (fun l =>
      { l with height := laneHeight ns4 l.lane_index })).length = doc.actors.length := by
    have := congrArg List.length hl1idxp
    simpa using this
  have hpairL : ((mkLanes doc).map (fun l =>
      { l with height := laneHeight ns4 l.lane_index })).Pairwise
      (fun a b => laneIdxLe a b = true) := by
    apply lanes_pairwise_of_idx
    rw [hl1idxp, hl1len]
  have hsortL : sortLe laneIdxLe ((mkLanes doc).map (fun l =>
      { l with height := laneHeight ns4 l.lane_index })) =
      (mkLanes doc).map (fun l => { l with height := laneHeight ns4 l.lane_index }) :=
    sortLe_eq_self _ _ hpairL
  have hlidx : lanes2.map (fun l => l.lane_index) = List.range doc.actors.length := by
    rw [hlanes2, hsortL, placeLanes_map_proj (fun l => l.lane_index) (fun l y => rfl), hl1idxp]
  have hlh : ∀ l ∈ lanes2, l.height = laneHeight ns4 l.lane_index := by
    intro l hl
    have hmem : (l.lane_index, l.height) ∈ lanes2.map (fun q => (q.lane_index, q.height)) :=
      List.mem_map_of_mem _ hl
    rw [hlanes2, hsortL, placeLanes_map_proj (fun q => (q.lane_index, q.height)) (fun q y => rfl), List.map_map] at hmem
    obtain ⟨q, _, hq⟩ := List.mem_map.mp hmem
    have h1 : q.lane_index = l.lane_index := congrArg Prod.fst hq
    have h2 : laneHeight ns4 q.lane_index = l.height := congrArg Prod.snd hq
    rw [← h2, h1]
  have hlbands : lanes2.Pairwise (fun a b =>
      a.y + a.height ≤ b.y ∨ b.y + b.height ≤ a.y) := by
    have hhnn : ∀ q ∈ sortLe laneIdxLe ((mkLanes doc).map (fun l =>
        { l with height := laneHeight ns4 l.lane_index })), 0 ≤ q.height := by
      intro q hq
      rw [hsortL] at hq
      obtain ⟨p, _, rfl⟩ := List.mem_map.mp hq
      exact le_of_lt (laneHeight_pos _ _)
    have := placeLanes_pairwise _ 50 hhnn
    rw [← hlanes2] at this
    exact this.imp (fun hx => Or.inl hx)
  have hlfind : ∀ m ∈ ns4, ∃ l, lanes2.find? (fun x => x.lane_index == m.lane_index) = some l ∧
      l.lane_index = m.lane_index ∧ l ∈ lanes2 := by
    intro m hm
    have hmem : m.lane_index ∈ lanes2.map (fun l => l.lane_index) := by
      rw [hlidx]
      exact List.mem_range.mpr (hlane4 m hm)
    obtain ⟨l, hl, hle⟩ := List.mem_map.mp hmem
    obtain ⟨l', hf, hi, hm'⟩ := find?_by_idx (fun l => l.lane_index) lanes2 m.lane_index
      ⟨l, hl, hle⟩
    exact ⟨l', hf, hi, hm'⟩
  -- node-level facts
  have hid' : m1.node_id ≠ m2.node_id := by
    intro hc
    apply hid
    rw [← hpn1, ← hpn2, (placeNode_preserves _ _ _ _).1, (placeNode_preserves _ _ _ _).1, hc]
  have hrk1 : n1.rank_index = m1.rank_index := by
    rw [← hpn1]; exact (placeNode_preserves _ _ _ _).2.2.2.2.1
  have hrk2 : n2.rank_index = m2.rank_index := by
    rw [← hpn2]; exact (placeNode_preserves _ _ _ _).2.2.2.2.1
  have hln1 : n1.lane_index = m1.lane_index := by
    rw [← hpn1]; exact (placeNode_preserves _ _ _ _).2.2.2.1
  have hln2 : n2.lane_index = m2.lane_index := by
    rw [← hpn2]; exact (placeNode_preserves _ _ _ _).2.2.2.1
  by_cases hrk : m1.rank_index = m2.rank_index
  · by_cases hln : m1.lane_index = m2.lane_index
    · -- same (rank, lane) cell: vertical stack with 20 unit gaps
      obtain ⟨l, hlf, hlieq, hlmem⟩ := hlfind m1 hm1
      have hstack := node_same_cell ranks2 lanes2 ns4 m1 m2 hnd4 hhgt hm1 hm2 hid' hrk hln l hlf
      rw [hpn1, hpn2] at hstack
      constructor
      · unfold boxesDisjoint
        rcases hstack with hs | hs
        · right; right; left; linarith
        · right; right; right; linarith
      · intro _ _
        exact hstack
    · -- same rank, different lanes: disjoint lane bands
      obtain ⟨l1, hlf1, hli1, hlm1⟩ := hlfind m1 hm1
      obtain ⟨l2, hlf2, hli2, hlm2⟩ := hlfind m2 hm2
      have hband1 := node_y_band ranks2 lanes2 ns4 m1 l1 hlf1
        (by rw [hlh l1 hlm1, hli1]) hnd4 hhgt hm1
      have hband2 := node_y_band ranks2 lanes2 ns4 m2 l2 hlf2
        (by rw [hlh l2 hlm2, hli2]) hnd4 hhgt hm2
      rw [hpn1] at hband1
      rw [hpn2] at hband2
      have hlne : l1 ≠ l2 := by
        intro hc
        apply hln
        rw [← hli1, ← hli2, hc]
      have hsep := List.Pairwise.forall (fun a b hab => hab.symm) hlbands hlm1 hlm2 hlne
      constructor
      · unfold boxesDisjoint
        rcases hsep with hs | hs
        · right; right; left; linarith [hband1.2, hband2.1]
        · right; right; right; linarith [hband1.1, hband2.2]
      · intro _ hc
        exfalso
        apply hln
        rw [← hln1, ← hln2, hc]
  · -- different ranks: disjoint rank bands
    obtain ⟨r1, hrf1, hri1, hrm1⟩ := hrfind m1 hm1
    obtain ⟨r2, hrf2, hri2, hrm2⟩ := hrfind m2 hm2
    have hband1 := node_x_band ranks2 lanes2 ns4 m1 r1 hrf1 (by rw [hrw r1 hrm1, hri1]) hm1
    have hband2 := node_x_band ranks2 lanes2 ns4 m2 r2 hrf2 (by rw [hrw r2 hrm2, hri2]) hm2
    rw [hpn1] at hband1
    rw [hpn2] at hband2
    have hrne : r1 ≠ r2 := by
      intro hc
      apply hrk
      rw [← hri1, ← hri2, hc]
    have hsep := List.Pairwise.forall (fun a b hab => hab.symm) hrbands hrm1 hrm2 hrne
    constructor
    · unfold boxesDisjoint
      rcases hsep with hs | hs
      · left; linarith [hband1.2, hband2.1]
      · right; left; linarith [hband1.1, hband2.2]
    · intro hc _
      exfalso
      apply hrk
      rw [← hrk1, ← hrk2, hc]

/-- Document with one actor and two tasks and no flows: both tasks land in
rank 0 of lane 0, the same cell (C2 witness input). -/
def c2wdoc : FlowDoc :=
  { actors := [mkActor "a1"], tasks := [mkTask "A" "a1", mkTask "B" "a1"],
    gateways := [], flows := [] }

/-- Layout result of c2wdoc. -/
def c2wres : LayoutResult := (runLayout c2wdoc).getD emptyRes

/-- Node A of the c2wdoc layout. -/
def c2wn1 : LayoutNode := ((c2wres.nodes.get? 0).getD (taskNode (mkTask "A" "")))

/-- Node B of the c2wdoc layout. -/
def c2wn2 : LayoutNode := ((c2wres.nodes.get? 1).getD (taskNode (mkTask "A" "")))

/-- Witness for c2_no_overlap: on the concrete one-actor document both
distinct nodes share the (rank 0, lane 0) cell, their boxes are disjoint
and they are stacked at least 20 units apart. -/
theorem c2_no_overlap_witness :
    c2wdoc.actors ≠ [] ∧ runLayout c2wdoc = some c2wres ∧
    c2wn1 ∈ c2wres.nodes ∧ c2wn2 ∈ c2wres.nodes ∧ c2wn1.node_id ≠ c2wn2.node_id ∧
    (boxesDisjoint c2wn1 c2wn2 ∧
      (c2wn1.rank_index = c2wn2.rank_index → c2wn1.lane_index = c2wn2.lane_index →
        c2wn1.y + c2wn1.height + 20 ≤ c2wn2.y ∨ c2wn2.y + c2wn2.height + 20 ≤ c2wn1.y)) := by
  refine ⟨by decide, rfl, by with_unfolding_all decide, by with_unfolding_all decide,
    by decide, ?_⟩
  exact c2_no_overlap c2wdoc c2wres (by decide) rfl c2wn1 (by with_unfolding_all decide)
    c2wn2 (by with_unfolding_all decide) (by decide)

/-- Predecessors of v not yet dequeued: the number of incoming edges of v
whose source lies outside the done list D (edges counted with
multiplicity, exactly as the stored in-degree counts them). -/
def pendCnt (doc : FlowDoc) (D : List String) (v : String) : Nat :=
  ((reverseAdj doc v).filter (fun u => decide (u ∉ D))).length

theorem lookupA_setA_self {α : Type} :
    ∀ (m : List (String × α)) (k : String) (v d : α), lookupA m k = some d →
      lookupA (setA m k v) k = some v := by
  intro m
  induction m with
  | nil => intro k v d h; simp [lookupA] at h
  | cons p rest ih =>
    intro k v d h
    by_cases hk : p.1 = k
    · simp [setA, hk, lookupA]
    · simp only [lookupA, hk, if_false] at h
      simp only [setA, hk, if_false, lookupA, if_false]
      exact ih k v d h

theorem lookupA_setA_other {α : Type} :
    ∀ (m : List (String × α)) (k k' : String) (v : α), k ≠ k' →
      lookupA (setA m k v) k' = lookupA m k' := by
  intro m
  induction m with
  | nil => intro k k' v _; rfl
  | cons p rest ih =>
    intro k k' v hne
    by_cases hk : p.1 = k
    · have hk' : ¬ p.1 = k' := by rw [hk]; exact hne
      simp [setA, hk, lookupA, hk', hne]
    · simp only [setA, hk, if_false, lookupA]
      by_cases hk' : p.1 = k'
      · simp [hk']
      · simp only [hk', if_false]
        exact ih k k' v hne

theorem lookupA_exists_of_key {α : Type} :
    ∀ (m : List (String × α)) (k : String), k ∈ m.map Prod.fst →
      ∃ v, lookupA m k = some v := by
  intro m
  induction m with
  | nil => intro k h; simp at h
  | cons p rest ih =>
    intro k h
    by_cases hk : p.1 = k
    · exact ⟨p.2, by simp [lookupA, hk]⟩
    · simp only [List.map_cons, List.mem_cons] at h
      rcases h with h | h
      · exact absurd h.symm hk
      · obtain ⟨v, hv⟩ := ih k h
        exact ⟨v, by simp [lookupA, hk, hv]⟩

theorem lookupA_eq_of_mem_nodup {α : Type} :
    ∀ (m : List (String × α)), (m.map Prod.fst).Nodup →
      ∀ (k : String) (v : α), (k, v) ∈ m → lookupA m k = some v := by
  intro m
  induction m with
  | nil => intro _ k v h; simp at h
  | cons p rest ih =>
    intro hnd k v h
    simp only [List.map_cons, List.nodup_cons] at hnd
    rcases List.mem_cons.mp h with h | h
    · rw [← h]
      simp [lookupA]
    · by_cases hk : p.1 = k
      · exfalso
        apply hnd.1
        rw [hk]
        exact List.mem_map_of_mem Prod.fst h
      · simp only [lookupA, hk, if_false]
        exact ih hnd.2 k v h

theorem mem_forwardAdj_iff {doc : FlowDoc} {u s : String} :
    s ∈ forwardAdj doc u ↔ ∃ f ∈ graphFlows doc, f.src = u ∧ f.dst = s := by
  simp only [forwardAdj, List.mem_map, List.mem_filter, beq_iff_eq]
  constructor
  · rintro ⟨f, ⟨hf, hs⟩, hd⟩
    exact ⟨f, hf, hs, hd⟩
  · rintro ⟨f, hf, hs, hd⟩
    exact ⟨f, ⟨hf, hs⟩, hd⟩

theorem mem_reverseAdj_iff {doc : FlowDoc} {u s : String} :
    u ∈ reverseAdj doc s ↔ ∃ f ∈ graphFlows doc, f.src = u ∧ f.dst = s := by
  simp only [reverseAdj, List.mem_map, List.mem_filter, beq_iff_eq]
  constructor
  · rintro ⟨f, ⟨hf, hd⟩, hs⟩
    exact ⟨f, hf, hs, hd⟩
  · rintro ⟨f, hf, hs, hd⟩
    exact ⟨f, ⟨hf, hd⟩, hs⟩

theorem fwd_rev {doc : FlowDoc} {u s : String} :
    s ∈ forwardAdj doc u ↔ u ∈ reverseAdj doc s := by
  rw [mem_forwardAdj_iff, mem_reverseAdj_iff]

theorem count_fwd_rev (doc : FlowDoc) (u v : String) :
    (forwardAdj doc u).count v = (reverseAdj doc v).count u := by
  unfold forwardAdj reverseAdj
  have key : ∀ L : List FlowRec,
      ((L.filter (fun f => f.src == u)).map (fun f => f.dst)).count v =
      ((L.filter (fun f => f.dst == v)).map (fun f => f.src)).count u := by
    intro L
    induction L with
    | nil => rfl
    | cons f rest ih =>
      by_cases hs : f.src = u <;> by_cases hd : f.dst = v <;>
        simp [List.filter_cons, hs, hd, List.count_cons, ih]
  exact key (graphFlows doc)

theorem pendCnt_zero_iff (doc : FlowDoc) (D : List String) (v : String) :
    pendCnt doc D v = 0 ↔ ∀ u ∈ reverseAdj doc v, u ∈ D := by
  unfold pendCnt
  rw [List.length_eq_zero, List.filter_eq_nil]
  simp

theorem pendCnt_split (doc : FlowDoc) (D : List String) (c : String) (v : String)
    (hc : c ∉ D) :
    pendCnt doc D v = pendCnt doc (D ++ [c]) v + (reverseAdj doc v).count c := by
  unfold pendCnt
  generalize reverseAdj doc v = L
  induction L with
  | nil => rfl
  | cons a as ih =>
    simp only [List.filter_cons, List.count_cons] at ih ⊢
    simp at ih ⊢
    by_cases haD : a ∈ D
    · have hac : a ≠ c := fun h => hc (h ▸ haD)
      simp [haD, hac, ih]
      try omega
    · by_cases hac : a = c
      · subst hac
        simp [haD, ih]
        try omega
      · simp [haD, hac, ih]
        try omega

/-- In an association list whose keys split as A ++ B and whose values are
nondecreasing in list order, every value keyed in A is at most every value
keyed in B. -/
theorem asg_value_le :
    ∀ (asg : List (String × Nat)) (A B : List String),
      asg.map Prod.fst = A ++ B → (A ++ B).Nodup →
      (asg.map Prod.snd).Pairwise (fun a b => a ≤ b) →
      ∀ (u c : String) (ru rc : Nat), u ∈ A → c ∈ B →
        (u, ru) ∈ asg → (c, rc) ∈ asg → ru ≤ rc := by
  intro asg
  induction asg with
  | nil =>
    intro A B hkeys _ _ u c ru rc hu hc hmu _
    simp at hmu
  | cons p rest ih =>
    intro A B hkeys hnd hord u c ru rc hu hc hmu hmc
    cases A with
    | nil => simp at hu
    | cons a A' =>
      simp only [List.map_cons, List.cons_append] at hkeys
      have hpa : p.1 = a := (List.cons.inj hkeys).1
      have hkeys' : rest.map Prod.fst = A' ++ B := (List.cons.inj hkeys).2
      simp only [List.cons_append, List.nodup_cons] at hnd
      simp only [List.map_cons] at hord
      have hord' := List.pairwise_cons.mp hord
      have hca : c ≠ a := by
        intro hcc
        apply hnd.1
        rw [← hcc]
        exact List.mem_append.mpr (Or.inr hc)
      have hmc' : (c, rc) ∈ rest := by
        rcases List.mem_cons.mp hmc with h | h
        · exact absurd ((congrArg Prod.fst h).trans hpa) hca
        · exact h
      rcases List.mem_cons.mp hu with hua | hua'
      · have hmu' : (u, ru) = p := by
          rcases List.mem_cons.mp hmu with h | h
          · exact h
          · exfalso
            apply hnd.1
            have h1 : u ∈ rest.map Prod.fst := List.mem_map_of_mem Prod.fst h
            rw [hkeys'] at h1
            rw [← hua]
            exact h1
        have hru : ru = p.2 := congrArg Prod.snd hmu'
        rw [hru]
        exact hord'.1 rc (List.mem_map_of_mem Prod.snd hmc')
      · have hua2 : u ≠ a := by
          intro hcc
          apply hnd.1
          rw [← hcc]
          exact List.mem_append.mpr (Or.inl hua')
        have hmu'' : (u, ru) ∈ rest := by
          rcases List.mem_cons.mp hmu with h | h
          · exact absurd ((congrArg Prod.fst h).trans hpa) hua2
          · exact h
        exact ih A' B hkeys' hnd.2 hord'.2 u c ru rc hua' hc hmu'' hmc'

/-- Invariant of the topological-sort BFS loop. D is the list of dequeued
node ids (in dequeue order), q the current queue, asg the rank assignment,
indeg the stored in-degree table. -/
structure BfsInv (doc : FlowDoc) (ids : List String) (D : List String)
    (indeg : List (String × Int)) (asg : List (String × Nat)) (q : List String) : Prop where
  keys : asg.map Prod.fst = D ++ q
  nodup : (D ++ q).Nodup
  sub : ∀ x ∈ D ++ q, x ∈ ids
  deg : ∀ v ∈ ids, lookupA indeg v = some ((pendCnt doc D v : Int))
  pendDone : ∀ v ∈ ids, pendCnt doc D v = 0 → v ∈ D ++ q
  ordv : (asg.map Prod.snd).Pairwise (fun a b => a ≤ b)
  bound : ∀ r ∈ asg.map Prod.snd, ∀ c ∈ q, ∀ rc, (c, rc) ∈ asg → r ≤ rc + 1
  edges : ∀ v rv, (v, rv) ∈ asg → ∀ u ∈ reverseAdj doc v, ∃ ru, (u, ru) ∈ asg ∧ ru + 1 ≤ rv
  preds : ∀ v ∈ D ++ q, ∀ u ∈ reverseAdj doc v, u ∈ D

theorem processSuccs_cons_eq (s : String) (rest : List String) (rc : Nat)
    (indeg : List (String × Int)) (asg : List (String × Nat)) (d : Int)
    (h : lookupA indeg s = some d) :
    processSuccs (s :: rest) rc indeg asg =
      if d - 1 = 0 then
        match processSuccs rest rc (setA indeg s (d - 1)) (asg ++ [(s, rc + 1)]) with
        | none => none
        | some res => some (res.1, res.2.1, s :: res.2.2)
      else processSuccs rest rc (setA indeg s (d - 1)) asg := by
  simp only [processSuccs, h]

/-- Full specification of one successor-processing pass: it always succeeds
when all successors are known ids, appends exactly the newly ready nodes at
rank rc + 1, leaves the stored in-degrees at the pending counts of the
extended done list, and enqueues precisely the nodes whose pending count
reached zero. -/
theorem processSuccs_spec (doc : FlowDoc) (ids : List String) (D' : List String) (rc : Nat) :
    ∀ (S : List String) (indeg : List (String × Int)) (asg : List (String × Nat)),
      (∀ s ∈ S, s ∈ ids) →
      (∀ v ∈ ids, lookupA indeg v = some ((pendCnt doc D' v + S.count v : Nat) : Int)) →
      ∃ indeg₂ asg₂ newS,
        processSuccs S rc indeg asg = some (indeg₂, asg₂, newS) ∧
        asg₂ = asg ++ newS.map (fun s => (s, rc + 1)) ∧
        (∀ v ∈ ids, lookupA indeg₂ v = some ((pendCnt doc D' v : Int))) ∧
        (∀ s ∈ newS, s ∈ S) ∧
        (∀ s ∈ newS, pendCnt doc D' s = 0) ∧
        newS.Nodup ∧
        (∀ v ∈ S, pendCnt doc D' v = 0 → v ∈ newS) := by
  intro S
  induction S with
  | nil =>
    intro indeg asg _ hdeg
    refine ⟨indeg, asg, [], rfl, by simp, ?_, by simp, by simp, List.nodup_nil, by simp⟩
    intro v hv
    have h := hdeg v hv
    simpa using h
  | cons s rest ih =>
    intro indeg asg hS hdeg
    have hsids : s ∈ ids := hS s (List.mem_cons_self s rest)
    have hcnt : pendCnt doc D' s + (s :: rest).count s =
        (pendCnt doc D' s + rest.count s) + 1 := by
      simp [List.count_cons]
      try omega
    have hds : lookupA indeg s =
        some (((pendCnt doc D' s + rest.count s + 1 : Nat) : Int)) := by
      rw [hdeg s hsids, hcnt]
    rw [processSuccs_cons_eq s rest rc indeg asg _ hds]
    have hSrest : ∀ t ∈ rest, t ∈ ids := fun t ht => hS t (List.mem_cons_of_mem s ht)
    have hdeg' : ∀ v ∈ ids,
        lookupA (setA indeg s (((pendCnt doc D' s + rest.count s + 1 : Nat) : Int) - 1)) v =
        some ((pendCnt doc D' v + rest.count v : Nat) : Int) := by
      intro v hv
      by_cases hvs : v = s
      · subst hvs
        rw [lookupA_setA_self indeg v _ _ hds]
        congr 1
        push_cast
        ring
      · have hvs' : s ≠ v := fun h => hvs (Eq.symm h)
        rw [lookupA_setA_other _ _ _ _ hvs']
        rw [hdeg v hv]
        have hcv : (s :: rest).count v = rest.count v := by
          rw [List.count_cons]
          simp [hvs, hvs']
        rw [hcv]
    by_cases hz : pendCnt doc D' s + rest.count s = 0
    · have hif : ((pendCnt doc D' s + rest.count s + 1 : Nat) : Int) - 1 = 0 := by
        push_cast
        omega
      rw [if_pos hif]
      obtain ⟨indeg₂, asg₂, newS', hrec, hasg, hdeg₂, hsubS, hpend0, hnodupS, hcompl⟩ :=
        ih (setA indeg s (((pendCnt doc D' s + rest.count s + 1 : Nat) : Int) - 1))
          (asg ++ [(s, rc + 1)]) hSrest hdeg'
      rw [hrec]
      refine ⟨indeg₂, asg₂, s :: newS', rfl, ?_, hdeg₂, ?_, ?_, ?_, ?_⟩
      · rw [hasg]
        simp
      · intro t ht
        rcases List.mem_cons.mp ht with h | h
        · rw [h]; exact List.mem_cons_self s rest
        · exact List.mem_cons_of_mem s (hsubS t h)
      · intro t ht
        rcases List.mem_cons.mp ht with h | h
        · rw [h]; omega
        · exact hpend0 t h
      · refine List.nodup_cons.mpr ⟨?_, hnodupS⟩
        intro hsN
        have hsrest : s ∈ rest := hsubS s hsN
        have : rest.count s ≠ 0 := by
          rw [Ne, List.count_eq_zero]
          exact fun h => h hsrest
        omega
      · intro v hv h0
        rcases List.mem_cons.mp hv with h | h
        · rw [h]; exact List.mem_cons_self s newS'
        · exact List.mem_cons_of_mem s (hcompl v h h0)
    · have hif : ¬ (((pendCnt doc D' s + rest.count s + 1 : Nat) : Int) - 1 = 0) := by
        push_cast
        omega
      rw [if_neg hif]
      obtain ⟨indeg₂, asg₂, newS', hrec, hasg, hdeg₂, hsubS, hpend0, hnodupS, hcompl⟩ :=
        ih (setA indeg s (((pendCnt doc D' s + rest.count s + 1 : Nat) : Int) - 1))
          asg hSrest hdeg'
      refine ⟨indeg₂, asg₂, newS', hrec, hasg, hdeg₂, ?_, hpend0, hnodupS, ?_⟩
      · exact fun t ht => List.mem_cons_of_mem s (hsubS t ht)
      · intro v hv h0
        rcases List.mem_cons.mp hv with h | h
        · subst h
          have hvrest : v ∈ rest := by
            have : rest.count v ≠ 0 := by omega
            exact List.count_pos_iff_mem.mp (Nat.pos_of_ne_zero this)
          exact hcompl v hvrest h0
        · exact hcompl v h h0

/-- One BFS dequeue step preserves the loop invariant, moving the dequeued
node from the queue to the done list. -/
theorem bfsStep_inv (doc : FlowDoc) (ids : List String)
    (hclosed : ∀ f ∈ graphFlows doc, f.src ∈ ids ∧ f.dst ∈ ids)
    (D : List String) (indeg : List (String × Int)) (asg : List (String × Nat))
    (current : String) (q : List String)
    (hinv : BfsInv doc ids D indeg asg (current :: q)) :
    ∃ res, bfsStep doc indeg asg current = some res ∧
      BfsInv doc ids (D ++ [current]) res.1 res.2.1 (q ++ res.2.2) := by
  have hckey : current ∈ asg.map Prod.fst := by
    rw [hinv.keys]
    exact List.mem_append.mpr (Or.inr (List.mem_cons_self current q))
  obtain ⟨rc, hrc⟩ := lookupA_exists_of_key asg current hckey
  have hrcmem : (current, rc) ∈ asg := lookupA_mem asg current rc hrc
  have hS : ∀ s ∈ forwardAdj doc current, s ∈ ids := by
    intro s hs
    obtain ⟨f, hf, _, hdst⟩ := mem_forwardAdj_iff.mp hs
    exact hdst ▸ (hclosed f hf).2
  have hndapp := List.nodup_append.mp hinv.nodup
  have hcD : current ∉ D := by
    intro hc
    exact hndapp.2.2 hc (List.mem_cons_self current q)
  have hdeg0 : ∀ v ∈ ids, lookupA indeg v =
      some ((pendCnt doc (D ++ [current]) v + (forwardAdj doc current).count v : Nat) : Int) := by
    intro v hv
    rw [hinv.deg v hv]
    have h1 : pendCnt doc D v =
        pendCnt doc (D ++ [current]) v + (forwardAdj doc current).count v := by
      rw [count_fwd_rev]
      exact pendCnt_split doc D current v hcD
    rw [h1]
  obtain ⟨indeg₂, asg₂, newS, hrun, hasg, hdeg₂, hsubS, hpend0, hnodupS, hcompl⟩ :=
    processSuccs_spec doc ids (D ++ [current]) rc (forwardAdj doc current) indeg asg hS hdeg0
  refine ⟨(indeg₂, asg₂, newS), ?_, ?_⟩
  · simp only [bfsStep, hrc]
    exact hrun
  have hfresh : ∀ s ∈ newS, s ∉ D ++ current :: q := by
    intro s hsN hmem
    have hsS : s ∈ forwardAdj doc current := hsubS s hsN
    have hcur : current ∈ reverseAdj doc s := fwd_rev.mp hsS
    exact hcD (hinv.preds s hmem current hcur)
  have hlist : (D ++ [current]) ++ (q ++ newS) = (D ++ current :: q) ++ newS := by
    simp [List.append_assoc]
  have hkeys' : asg.map Prod.fst = (D ++ [current]) ++ q := by
    rw [hinv.keys]
    simp [List.append_assoc]
  have hnd' : ((D ++ [current]) ++ q).Nodup := by
    have heq : (D ++ [current]) ++ q = D ++ current :: q := by simp [List.append_assoc]
    rw [heq]
    exact hinv.nodup
  have hkeys₂ : asg₂.map Prod.fst = (D ++ [current]) ++ (q ++ newS) := by
    rw [hasg, List.map_append, hinv.keys, hlist]
    congr 1
    have hcongr : List.map (Prod.fst ∘ fun s => (s, rc + 1)) newS =
        List.map (fun s => s) newS := List.map_congr_left (fun a _ => rfl)
    rw [List.map_map, hcongr]
    exact List.map_id' newS
  refine ⟨hkeys₂, ?_, ?_, hdeg₂, ?_, ?_, ?_, ?_, ?_⟩
  · rw [hlist, List.nodup_append]
    exact ⟨hinv.nodup, hnodupS, fun a ha haN => hfresh a haN ha⟩
  · intro x hx
    rw [hlist] at hx
    rcases List.mem_append.mp hx with h | h
    · exact hinv.sub x h
    · exact hS x (hsubS x h)
  · intro v hv h0
    rw [hlist]
    by_cases hp : pendCnt doc D v = 0
    · exact List.mem_append.mpr (Or.inl (hinv.pendDone v hv hp))
    · have hsplit := pendCnt_split doc D current v hcD
      have hcnt : (reverseAdj doc v).count current ≠ 0 := by omega
      have hcur : current ∈ reverseAdj doc v :=
        List.count_pos_iff_mem.mp (Nat.pos_of_ne_zero hcnt)
      have hvS : v ∈ forwardAdj doc current := fwd_rev.mpr hcur
      exact List.mem_append.mpr (Or.inr (hcompl v hvS h0))
  · rw [hasg, List.map_append, List.pairwise_append]
    refine ⟨hinv.ordv, ?_, ?_⟩
    · rw [List.map_map]
      exact List.pairwise_map.mpr (hnodupS.imp (fun _ => Nat.le_refl (rc + 1)))
    · intro a ha b hb
      rw [List.map_map] at hb
      obtain ⟨t, _, hbt⟩ := List.mem_map.mp hb
      rw [← hbt]
      exact hinv.bound a ha current (List.mem_cons_self current q) rc hrcmem
  · intro r hr c hc rcc hrccmem
    rw [hasg, List.map_append] at hr
    rw [hasg] at hrccmem
    rcases List.mem_append.mp hrccmem with hm | hm
    · have hcq : c ∈ q := by
        rcases List.mem_append.mp hc with h | h
        · exact h
        · exfalso
          apply hfresh c h
          have hck : c ∈ asg.map Prod.fst := List.mem_map_of_mem Prod.fst hm
          rw [hinv.keys] at hck
          exact hck
      rcases List.mem_append.mp hr with hro | hrn
      · exact hinv.bound r hro c (List.mem_cons_of_mem current hcq) rcc hm
      · rw [List.map_map] at hrn
        obtain ⟨t, _, hrt⟩ := List.mem_map.mp hrn
        have hle : rc ≤ rcc :=
          asg_value_le asg (D ++ [current]) q hkeys' hnd' hinv.ordv current c rc rcc
            (List.mem_append.mpr (Or.inr (List.mem_singleton.mpr rfl))) hcq hrcmem hm
        rw [← hrt]
        show rc + 1 ≤ rcc + 1
        omega
    · obtain ⟨t, htN, hteq⟩ := List.mem_map.mp hm
      have hrcc : rcc = rc + 1 := (congrArg Prod.snd hteq).symm
      rcases List.mem_append.mp hr with hro | hrn
      · have := hinv.bound r hro current (List.mem_cons_self current q) rc hrcmem
        omega
      · rw [List.map_map] at hrn
        obtain ⟨t', _, hrt⟩ := List.mem_map.mp hrn
        rw [← hrt]
        show rc + 1 ≤ rcc + 1
        omega
  · intro v rv hmem u hu
    rw [hasg] at hmem
    rcases List.mem_append.mp hmem with hm | hm
    · obtain ⟨ru, hrumem, hle⟩ := hinv.edges v rv hm u hu
      exact ⟨ru, by rw [hasg]; exact List.mem_append.mpr (Or.inl hrumem), hle⟩
    · obtain ⟨t, htN, hteq⟩ := List.mem_map.mp hm
      have hvt : t = v := congrArg Prod.fst hteq
      have hrv : rv = rc + 1 := (congrArg Prod.snd hteq).symm
      have hpz : pendCnt doc (D ++ [current]) v = 0 := hvt ▸ hpend0 t htN
      have hud : u ∈ D ++ [current] := (pendCnt_zero_iff doc _ v).mp hpz u hu
      rcases List.mem_append.mp hud with huD | huc
      · have hukey : u ∈ asg.map Prod.fst := by
          rw [hinv.keys]
          exact List.mem_append.mpr (Or.inl huD)
        obtain ⟨ru, hru⟩ := lookupA_exists_of_key asg u hukey
        have hrumem := lookupA_mem asg u ru hru
        have hle : ru ≤ rc := asg_value_le asg D (current :: q) hinv.keys hinv.nodup
          hinv.ordv u current ru rc huD (List.mem_cons_self current q) hrumem hrcmem
        exact ⟨ru, by rw [hasg]; exact List.mem_append.mpr (Or.inl hrumem), by omega⟩
      · have huc' : u = current := List.mem_singleton.mp huc
        refine ⟨rc, ?_, by omega⟩
        rw [hasg, huc']
        exact List.mem_append.mpr (Or.inl hrcmem)
  · intro v hv u hu
    rw [hlist] at hv
    rcases List.mem_append.mp hv with h | h
    · exact List.mem_append.mpr (Or.inl (hinv.preds v h u hu))
    · exact (pendCnt_zero_iff doc _ v).mp (hpend0 v h) u hu

/-- Running the BFS loop from any invariant state with sufficient fuel
succeeds and ends in an invariant state with an empty queue. -/
theorem bfsLoopF_inv (doc : FlowDoc) (ids : List String)
    (hclosed : ∀ f ∈ graphFlows doc, f.src ∈ ids ∧ f.dst ∈ ids) :
    ∀ (fuel : Nat) (D : List String) (indeg : List (String × Int))
      (asg : List (String × Nat)) (q : List String),
      BfsInv doc ids D indeg asg q →
      q.length + sumPos indeg ≤ fuel →
      ∃ asg₂ D₂ indeg₂, bfsLoopF doc fuel indeg asg q = some asg₂ ∧
        BfsInv doc ids D₂ indeg₂ asg₂ [] := by
  intro fuel
  induction fuel with
  | zero =>
    intro D indeg asg q hinv hf
    have hq : q = [] := by
      cases q with
      | nil => rfl
      | cons a as => simp at hf
    subst hq
    exact ⟨asg, D, indeg, rfl, hinv⟩
  | succ n ih =>
    intro D indeg asg q hinv hf
    cases q with
    | nil => exact ⟨asg, D, indeg, rfl, hinv⟩
    | cons current rest =>
      obtain ⟨res, hstep, hinv'⟩ := bfsStep_inv doc ids hclosed D indeg asg current rest hinv
      have hbound := bfsStep_bound hstep
      have heq : bfsLoopF doc (n + 1) indeg asg (current :: rest) =
          bfsLoopF doc n res.1 res.2.1 (rest ++ res.2.2) := by
        simp only [bfsLoopF, hstep]
      have hfuel : (rest ++ res.2.2).length + sumPos res.1 ≤ n := by
        simp only [List.length_append]
        simp only [List.length_cons] at hf
        omega
      obtain ⟨asg₂, D₂, indeg₂, hres, hinv₂⟩ :=
        ih (D ++ [current]) res.1 res.2.1 (rest ++ res.2.2) hinv' hfuel
      exact ⟨asg₂, D₂, indeg₂, heq.trans hres, hinv₂⟩

theorem lookupA_initialIndeg (doc : FlowDoc) :
    ∀ (ids : List String) (v : String), v ∈ ids →
      lookupA (initialIndeg doc ids) v = some ((reverseAdj doc v).length : Int) := by
  intro ids
  induction ids with
  | nil => intro v hv; simp at hv
  | cons a rest ih =>
    intro v hv
    by_cases hav : a = v
    · subst hav
      simp [initialIndeg, lookupA]
    · have hv' : v ∈ rest := by
        rcases List.mem_cons.mp hv with h | h
        · exact absurd h.symm hav
        · exact h
      simp only [initialIndeg, List.map_cons, lookupA, hav, if_false]
      exact ih v hv'

/-- The state right before the BFS loop satisfies the invariant. -/
theorem bfsInv_initial (doc : FlowDoc) (ids : List String) (hnd : ids.Nodup) :
    BfsInv doc ids [] (initialIndeg doc ids)
      ((bfsSeeds doc ids).map (fun nid => (nid, 0))) (bfsSeeds doc ids) := by
  have hseed : ∀ v, v ∈ bfsSeeds doc ids ↔ v ∈ ids ∧ (reverseAdj doc v).length = 0 := by
    intro v
    unfold bfsSeeds
    rw [List.mem_filter]
    simp
  refine ⟨?_, ?_, ?_, ?_, ?_, ?_, ?_, ?_, ?_⟩
  · rw [List.map_map]
    have hcongr : List.map (Prod.fst ∘ fun nid => ((nid, 0) : String × Nat))
        (bfsSeeds doc ids) = List.map (fun s => s) (bfsSeeds doc ids) :=
      List.map_congr_left (fun a _ => rfl)
    rw [hcongr, List.map_id']
    rfl
  · simp only [List.nil_append]
    exact hnd.filter _
  · intro x hx
    simp only [List.nil_append] at hx
    exact ((hseed x).mp hx).1
  · intro v hv
    rw [lookupA_initialIndeg doc ids v hv]
    have h1 : pendCnt doc [] v = (reverseAdj doc v).length := by
      unfold pendCnt
      simp
    rw [h1]
  · intro v hv h0
    have h1 : (reverseAdj doc v).length = 0 := by
      unfold pendCnt at h0
      simpa using h0
    simp only [List.nil_append]
    exact (hseed v).mpr ⟨hv, h1⟩
  · rw [List.map_map]
    exact List.pairwise_map.mpr ((hnd.filter _).imp (fun _ => Nat.le_refl 0))
  · intro r hr c hc rc hrc
    rw [List.map_map] at hr
    obtain ⟨t, _, hrt⟩ := List.mem_map.mp hr
    rw [← hrt]
    show 0 ≤ rc + 1
    omega
  · intro v rv hmem u hu
    exfalso
    obtain ⟨t, htS, hteq⟩ := List.mem_map.mp hmem
    have hvt : t = v := congrArg Prod.fst hteq
    have hlen : (reverseAdj doc v).length = 0 := ((hseed v).mp (hvt ▸ htS)).2
    rw [List.length_eq_zero] at hlen
    rw [hlen] at hu
    simp at hu
  · intro v hv u hu
    exfalso
    simp only [List.nil_append] at hv
    have hlen : (reverseAdj doc v).length = 0 := ((hseed v).mp hv).2
    rw [List.length_eq_zero] at hlen
    rw [hlen] at hu
    simp at hu

/-- On closed, duplicate-free node ids the BFS always completes and its
final assignment satisfies the invariant with an empty queue. -/
theorem bfsAssignment_spec (doc : FlowDoc) (ids : List String) (hnd : ids.Nodup)
    (hclosed : ∀ f ∈ graphFlows doc, f.src ∈ ids ∧ f.dst ∈ ids) :
    ∃ asg D₂ indeg₂, bfsAssignment doc ids = some asg ∧ BfsInv doc ids D₂ indeg₂ asg [] := by
  unfold bfsAssignment bfsLoop
  exact bfsLoopF_inv doc ids hclosed _ [] _ _ _ (bfsInv_initial doc ids hnd) (le_refl _)

/-- Acyclicity makes the BFS complete: every known node id is dequeued,
hence assigned a rank. -/
theorem bfs_complete (doc : FlowDoc) (ids D₂ : List String) (indeg₂ : List (String × Int))
    (asg : List (String × Nat))
    (hclosed : ∀ f ∈ graphFlows doc, f.src ∈ ids ∧ f.dst ∈ ids)
    (hacyc : Acyclic doc)
    (hinv : BfsInv doc ids D₂ indeg₂ asg []) :
    ∀ v ∈ ids, v ∈ D₂ := by
  classical
  have hstep : ∀ v ∈ ids, v ∉ D₂ → ∃ u, u ∈ reverseAdj doc v ∧ u ∉ D₂ ∧ u ∈ ids := by
    intro v hv hvD
    have hp : pendCnt doc D₂ v ≠ 0 := by
      intro h0
      apply hvD
      have := hinv.pendDone v hv h0
      simpa using this
    rw [Ne, pendCnt_zero_iff] at hp
    push_neg at hp
    obtain ⟨u, hu, huD⟩ := hp
    obtain ⟨f, hf, hs, _⟩ := mem_reverseAdj_iff.mp hu
    exact ⟨u, hu, huD, hs ▸ (hclosed f hf).1⟩
  have key : ∀ (n : Nat) (v : String), v ∈ ids →
      ((ids.toFinset).filter (fun u => Relation.TransGen (edgeTo doc) u v)).card ≤ n →
      v ∈ D₂ := by
    intro n
    induction n with
    | zero =>
      intro v hv hcard
      by_contra hvD
      obtain ⟨u, hu, _, huids⟩ := hstep v hv hvD
      have hmem : u ∈ (ids.toFinset).filter (fun w => Relation.TransGen (edgeTo doc) w v) :=
        Finset.mem_filter.mpr ⟨List.mem_toFinset.mpr huids, Relation.TransGen.single hu⟩
      have := Finset.card_pos.mpr ⟨u, hmem⟩
      omega
    | succ n ih =>
      intro v hv hcard
      by_contra hvD
      obtain ⟨u, hu, huD, huids⟩ := hstep v hv hvD
      have hsub : (ids.toFinset).filter (fun w => Relation.TransGen (edgeTo doc) w u) ⊆
          (ids.toFinset).filter (fun w => Relation.TransGen (edgeTo doc) w v) := by
        intro w hw
        obtain ⟨hw1, hw2⟩ := Finset.mem_filter.mp hw
        exact Finset.mem_filter.mpr ⟨hw1, hw2.trans (Relation.TransGen.single hu)⟩
      have humem : u ∈ (ids.toFinset).filter (fun w => Relation.TransGen (edgeTo doc) w v) :=
        Finset.mem_filter.mpr ⟨List.mem_toFinset.mpr huids, Relation.TransGen.single hu⟩
      have hunot : u ∉ (ids.toFinset).filter (fun w => Relation.TransGen (edgeTo doc) w u) := by
        intro hc
        exact hacyc u (Finset.mem_filter.mp hc).2
      have hss : (ids.toFinset).filter (fun w => Relation.TransGen (edgeTo doc) w u) ⊂
          (ids.toFinset).filter (fun w => Relation.TransGen (edgeTo doc) w v) :=
        ⟨hsub, fun hsub' => hunot (hsub' humem)⟩
      have hlt := Finset.card_lt_card hss
      exact absurd (ih u huids (by omega)) huD
  intro v hv
  exact key ((ids.toFinset).filter (fun u => Relation.TransGen (edgeTo doc) u v)).card
    v hv (le_refl _)

/-- The ids of the nodes built by _build_nodes, in node-dict order. -/
def nodeIds (doc : FlowDoc) : List String :=
  (buildNodes doc).map (fun n => n.node_id)

/-- The rank of a node in the completed layout is the rank_index of the
structurally ranked node found by id: the geometric stages preserve both
node_id and rank_index. -/
theorem nodeRank_find (doc : FlowDoc) (ns2 : List LayoutNode) (ranks0 : List LayoutRank)
    (h : runLayout doc = some (geomPipeline doc ns2 ranks0)) (s : String) :
    nodeRank doc s = (ns2.find? (fun n => n.node_id == s)).map (fun n => n.rank_index) := by
  unfold nodeRank
  rw [h]
  show ((geomPipeline doc ns2 ranks0).nodes.find? (fun n => n.node_id == s)).map
      (fun n => n.rank_index) =
      (ns2.find? (fun n => n.node_id == s)).map (fun n => n.rank_index)
  rw [geomPipeline_nodes]
  rw [find?_map_id _ (fun m => (placeNode_preserves _ _ _ m).1) _ s]
  rw [find?_map_id sizeNode (fun m => (sizeNode_preserves m).1) _ s]
  have hso : setOrderInRank ns2 = ns2.map (fun n =>
      { n with order_in_rank := (rankPeers ns2 n.rank_index).findIdx (fun m => m.node_id == n.node_id) }) := rfl
  rw [hso]
  rw [find?_map_id (fun n =>
      { n with order_in_rank := (rankPeers ns2 n.rank_index).findIdx (fun m => m.node_id == n.node_id) }) (fun m => rfl) ns2 s]
  cases hfind : ns2.find? (fun n => n.node_id == s) with
  | none => simp
  | some n =>
    simp only [Option.map_some']
    congr 1
    rw [(placeNode_preserves _ _ _ _).2.2.2.2.1]
    rw [(sizeNode_preserves _).2.2.2.2.1]

/-- A node id carrying an assigned rank ends up with exactly that rank in
the completed layout. -/
theorem nodeRank_assigned (doc : FlowDoc) (asg : List (String × Nat)) (r : Nat) (s : String)
    (hrun : runLayout doc = some (geomPipeline doc
      (rankedNodes asg (assignLanes doc (buildNodes doc)))
      (mkRankList (rankedNodes asg (assignLanes doc (buildNodes doc))))))
    (hs : s ∈ nodeIds doc) (hr : lookupA asg s = some r) :
    nodeRank doc s = some r := by
  have hids_eq : (assignLanes doc (buildNodes doc)).map (fun n => n.node_id) = nodeIds doc := by
    unfold assignLanes nodeIds
    exact map_projL (fun n => n.node_id)
      (fun n => { n with lane_index := (actorToLane doc.actors n.actor_id).getD 0 })
      (fun m => rfl) (buildNodes doc)
  have hfind : ∃ n0, (assignLanes doc (buildNodes doc)).find?
      (fun n => n.node_id == s) = some n0 := by
    have hmem : s ∈ (assignLanes doc (buildNodes doc)).map (fun n => n.node_id) := by
      rw [hids_eq]
      exact hs
    obtain ⟨n0, hn0, heq⟩ := List.mem_map.mp hmem
    have hsome : ((assignLanes doc (buildNodes doc)).find?
        (fun n => n.node_id == s)).isSome := by
      rw [List.find?_isSome]
      exact ⟨n0, hn0, by simp [heq]⟩
    exact Option.isSome_iff_exists.mp hsome
  obtain ⟨n0, hn0⟩ := hfind
  have hn0id : n0.node_id = s := by
    have := List.find?_some hn0
    simpa using this
  rw [nodeRank_find doc _ _ hrun s]
  have hrk : rankedNodes asg (assignLanes doc (buildNodes doc)) =
      (assignLanes doc (buildNodes doc)).map (fun n =>
        { n with rank_index := (lookupA asg n.node_id).getD (maxAsgRank asg + 1) }) := rfl
  rw [hrk]
  rw [find?_map_id (fun n =>
      { n with rank_index := (lookupA asg n.node_id).getD (maxAsgRank asg + 1) })
      (fun m => rfl) _ s]
  rw [hn0]
  simp only [Option.map_some']
  congr 1
  show (lookupA asg n0.node_id).getD (maxAsgRank asg + 1) = r
  rw [hn0id, hr]
  rfl

/-- C1 (amended): rank monotonicity on acyclic input whose flow endpoints
are all known node ids. Under these hypotheses calculate_layout completes,
every flow edge's endpoints are found in the result, and the target's rank
exceeds the source's rank by at least one. The claim's plain "for every
acyclic document" fails: a flow source that is not a built node poisons the
stored in-degrees and can leave both endpoints at equal fallback ranks (see
the counterexample). -/
theorem c1_rank_monotone (doc : FlowDoc)
    (hclosed : ∀ f ∈ graphFlows doc, f.src ∈ nodeIds doc ∧ f.dst ∈ nodeIds doc)
    (hacyc : Acyclic doc) :
    ∀ f ∈ graphFlows doc, ∃ ru rv,
      nodeRank doc f.src = some ru ∧ nodeRank doc f.dst = some rv ∧ ru + 1 ≤ rv := by
  have hndids : (nodeIds doc).Nodup := buildNodes_ids_nodup doc
  obtain ⟨asg, D₂, indeg₂, hbfs, hinv⟩ := bfsAssignment_spec doc (nodeIds doc) hndids hclosed
  have hcompl := bfs_complete doc (nodeIds doc) D₂ indeg₂ asg hclosed hacyc hinv
  have hkeys : asg.map Prod.fst = D₂ := by
    have h := hinv.keys
    simpa using h
  have hkeysnd : (asg.map Prod.fst).Nodup := by
    rw [hkeys]
    have h := hinv.nodup
    simpa using h
  have hids_eq : (assignLanes doc (buildNodes doc)).map (fun n => n.node_id) = nodeIds doc := by
    unfold assignLanes nodeIds
    exact map_projL (fun n => n.node_id)
      (fun n => { n with lane_index := (actorToLane doc.actors n.actor_id).getD 0 })
      (fun m => rfl) (buildNodes doc)
  have hrun : runLayout doc = some (geomPipeline doc
      (rankedNodes asg (assignLanes doc (buildNodes doc)))
      (mkRankList (rankedNodes asg (assignLanes doc (buildNodes doc))))) := by
    unfold runLayout assignRanksTopo
    rw [hids_eq, hbfs]
  intro f hf
  obtain ⟨hsrc, hdst⟩ := hclosed f hf
  obtain ⟨ru, hru⟩ := lookupA_exists_of_key asg f.src (by rw [hkeys]; exact hcompl f.src hsrc)
  obtain ⟨rv, hrv⟩ := lookupA_exists_of_key asg f.dst (by rw [hkeys]; exact hcompl f.dst hdst)
  have hmemv : (f.dst, rv) ∈ asg := lookupA_mem asg f.dst rv hrv
  have hedge : f.src ∈ reverseAdj doc f.dst := mem_reverseAdj_iff.mpr ⟨f, hf, rfl, rfl⟩
  obtain ⟨ru', hru'mem, hle⟩ := hinv.edges f.dst rv hmemv f.src hedge
  have hru' : lookupA asg f.src = some ru' :=
    lookupA_eq_of_mem_nodup asg hkeysnd f.src ru' hru'mem
  have hrueq : ru' = ru := by
    rw [hru'] at hru
    exact Option.some.inj hru
  refine ⟨ru, rv, ?_, ?_, by omega⟩
  · exact nodeRank_assigned doc asg ru f.src hrun hsrc hru
  · exact nodeRank_assigned doc asg rv f.dst hrun hdst hrv

theorem chainDoc_acyclic : Acyclic chainDoc := by
  apply acyclic_of_weight (fun s => if s = "B" then 1 else 0)
  intro x y hxy
  rw [edgeTo_iff] at hxy
  obtain ⟨f, hf, hsrc, hdst, _, _⟩ := hxy
  have hfe : f = mkFlow "A" "B" := by
    simpa [chainDoc] using hf
  subst hfe
  rw [← hsrc, ← hdst]
  decide

/-- Witness for c1_rank_monotone: the one-flow chain document A -> B has
closed endpoints and an acyclic graph, and the layout ranks A strictly
below B. -/
theorem c1_rank_monotone_witness :
    (∀ f ∈ graphFlows chainDoc, f.src ∈ nodeIds chainDoc ∧ f.dst ∈ nodeIds chainDoc) ∧
    Acyclic chainDoc ∧
    (∃ ru rv, nodeRank chainDoc "A" = some ru ∧ nodeRank chainDoc "B" = some rv ∧
      ru + 1 ≤ rv) := by
  have hclosed : ∀ f ∈ graphFlows chainDoc,
      f.src ∈ nodeIds chainDoc ∧ f.dst ∈ nodeIds chainDoc := by decide
  refine ⟨hclosed, chainDoc_acyclic, ?_⟩
  exact c1_rank_monotone chainDoc hclosed chainDoc_acyclic (mkFlow "A" "B") (by decide)
